import Mathlib

/-!
Verification of the `cidr-routing-table` repository: a shallow embedding of
the source files (`src/utils.rs`, `src/cidr.rs`, `src/errors.rs` and the three
routing-table backends under `src/routing_table/`) together with theorems
settling the specification claims.

Conventions of the embedding:
- Rust `u32` values (IPv4 addresses, bit masks) are `Nat`s; wherever the Rust
  code can wrap we take the result `% 2^32` explicitly.  Hypotheses `a < 2^32`
  stand for the fact that a Rust `u32` always holds such a value.
- `Ipv4Addr` is its numeric (big-endian) `u32` value; the derived `Ord` on
  `Ipv4Addr` in Rust compares octets lexicographically, which is exactly the
  numeric order used here.
- Fallible Rust functions returning `Result` become `Except`.
- The `usize` size counter of the trie backend wraps modulo `2^64` where the
  Rust release build wraps (the debug build panics at the same spot).
-/

set_option maxRecDepth 10000

deriving instance DecidableEq for Except

/-- Error type of `src/errors.rs`.  The payloads of `AddrParseError` and
`ParseIntError` are dropped: the claims only distinguish the four kinds. -/
inductive NetworkParseError where
  | AddrParseError
  | ParseIntError
  | CidrParseError
  | NetworkLengthError
  deriving DecidableEq

/-- Constant `MAX_LENGTH` of `src/utils.rs`. -/
def MAX_LENGTH : Nat := 32

/-- Embedding of `get_cidr_mask` from `src/utils.rs`.  The Rust code widens
`u32::MAX` to `u64`, shifts right then left by `32 - len`, and casts back to
`u32`; since the result never exceeds `u32::MAX` the cast is exact and the
`Nat` formula below computes the same value. -/
def get_cidr_mask (len : Nat) : Except NetworkParseError Nat :=
  if len > MAX_LENGTH then
    Except.error NetworkParseError.NetworkLengthError
  else
    let right_len := MAX_LENGTH - len
    let all_bits := 2 ^ 32 - 1
    Except.ok ((all_bits >>> right_len) <<< right_len)

/-- Embedding of `cut_addr` from `src/utils.rs` (on the numeric value of the
address).  The Rust code special-cases `right_len == 32` because a `u32`
shift by 32 would be an overflow panic. -/
def cut_addr (addr len : Nat) : Except NetworkParseError Nat :=
  if len > MAX_LENGTH then
    Except.error NetworkParseError.NetworkLengthError
  else
    let right_len := MAX_LENGTH - len
    Except.ok (if right_len = MAX_LENGTH then 0 else (addr >>> right_len) <<< right_len)

/-- The struct `Ipv4Cidr` of `src/cidr.rs`: an address plus a prefix length. -/
structure Ipv4Cidr where
  addr : Nat
  len : Nat
  deriving DecidableEq

/-- Embedding of `Ipv4Cidr::new` from `src/cidr.rs`. -/
def Ipv4Cidr.new (addr len : Nat) : Except NetworkParseError Ipv4Cidr :=
  match get_cidr_mask len with
  | Except.error e => Except.error e
  | Except.ok mask =>
    if addr &&& mask ≠ addr then Except.error NetworkParseError.NetworkLengthError
    else Except.ok ⟨addr, len⟩

/-- Embedding of `Ipv4Cidr::new_host` from `src/cidr.rs`. -/
def Ipv4Cidr.new_host (addr : Nat) : Ipv4Cidr := ⟨addr, MAX_LENGTH⟩

/-- Embedding of `Ipv4Cidr::prefix_len`. -/
def Ipv4Cidr.prefix_len (c : Ipv4Cidr) : Nat := c.len

/-- Embedding of `Ipv4Cidr::min`. -/
def Ipv4Cidr.min (c : Ipv4Cidr) : Nat := c.addr

/-- Embedding of `Ipv4Cidr::max` from `src/cidr.rs`.  The Rust code computes
`bits | (u32::MAX ^ mask)`; the `unwrap_or_else` panic branch for
`get_cidr_mask` failing is modelled by the (unreachable for
constructor-produced values) `error` arm returning 0. -/
def Ipv4Cidr.max (c : Ipv4Cidr) : Nat :=
  match get_cidr_mask c.len with
  | Except.ok mask => c.addr ||| ((2 ^ 32 - 1) ^^^ mask)
  | Except.error _ => 0

/-- Embedding of `Ipv4Cidr::contains` from `src/cidr.rs` (`lower <= addr &&
addr <= upper` on the derived octet order of `Ipv4Addr`, which is numeric). -/
def Ipv4Cidr.contains (c : Ipv4Cidr) (a : Nat) : Bool :=
  decide (c.min ≤ a ∧ a ≤ c.max)

/-- A CIDR value as it can actually exist in the Rust program: a 32-bit
address accepted by the validating constructor `Ipv4Cidr::new`. -/
def Ipv4Cidr.Valid (c : Ipv4Cidr) : Prop :=
  c.addr < 2 ^ 32 ∧ Ipv4Cidr.new c.addr c.len = Except.ok c

instance (c : Ipv4Cidr) : Decidable c.Valid := by
  unfold Ipv4Cidr.Valid
  infer_instance

/-- Truncation of an address to its top `d` bits, in arithmetic form.  This is
the reference form that the various shift/mask computations of the source are
proved equal to. -/
def truncA (a d : Nat) : Nat := a / 2 ^ (32 - d) * 2 ^ (32 - d)

/-! ### Arithmetic facts about the bit manipulations of the source -/

theorem two_pow_sub_two_pow (r n : Nat) (h : r ≤ n) :
    2 ^ n - 2 ^ r = (2 ^ (n - r) - 1) * 2 ^ r := by
  rw [Nat.sub_mul, one_mul, ← pow_add]
  congr 2
  omega

theorem two_pow_sub_one_div (k m : Nat) (h : k ≤ m) :
    (2 ^ m - 1) / 2 ^ k = 2 ^ (m - k) - 1 := by
  have hk : 0 < 2 ^ k := Nat.pos_pow_of_pos k (by norm_num)
  have hmk : 0 < 2 ^ (m - k) := Nat.pos_pow_of_pos _ (by norm_num)
  have hmul : 2 ^ (m - k) * 2 ^ k = 2 ^ m := by rw [← pow_add]; congr 1; omega
  apply Nat.div_eq_of_lt_le
  · rw [← two_pow_sub_two_pow k m h]
    omega
  · have hm : 0 < 2 ^ m := Nat.pos_pow_of_pos m (by norm_num)
    rw [Nat.sub_add_cancel hmk, hmul]
    omega

theorem truncA_le (a d : Nat) : truncA a d ≤ a :=
  Nat.div_mul_le_self a _

theorem truncA_lt (a d : Nat) (ha : a < 2 ^ 32) : truncA a d < 2 ^ 32 :=
  lt_of_le_of_lt (truncA_le a d) ha

theorem truncA_mod (a d : Nat) : truncA a d % 2 ^ (32 - d) = 0 := by
  unfold truncA
  exact Nat.mul_mod_left _ _

theorem truncA_eq_self (a : Nat) : truncA a 32 = a := by
  unfold truncA
  norm_num

theorem truncA_zero (a : Nat) (ha : a < 2 ^ 32) : truncA a 0 = 0 := by
  unfold truncA
  rw [Nat.sub_zero, Nat.div_eq_of_lt ha, Nat.zero_mul]

/-- Truncating an already truncated address further truncates. -/
theorem truncA_truncA (a j k : Nat) (h : j ≤ k) (hk : k ≤ 32) :
    truncA (truncA a k) j = truncA a j := by
  unfold truncA
  have hsplit : 2 ^ (32 - j) = 2 ^ (32 - k) * 2 ^ (k - j) := by
    rw [← pow_add]
    congr 1
    omega
  have key : a / 2 ^ (32 - k) * 2 ^ (32 - k) / 2 ^ (32 - j) = a / 2 ^ (32 - j) := by
    rw [hsplit, ← Nat.div_div_eq_div_mul,
      Nat.mul_div_cancel _ (Nat.pos_pow_of_pos _ (by norm_num)),
      Nat.div_div_eq_div_mul, ← hsplit]
  rw [key]

/-- Value of the mask computed by `get_cidr_mask`: the top `len` bits set. -/
theorem get_cidr_mask_eq (len : Nat) (h : len ≤ 32) :
    get_cidr_mask len = Except.ok (2 ^ 32 - 2 ^ (32 - len)) := by
  unfold get_cidr_mask MAX_LENGTH
  rw [if_neg (by omega)]
  show Except.ok (((2 ^ 32 - 1) >>> (32 - len)) <<< (32 - len)) = _
  rw [Nat.shiftRight_eq_div_pow, Nat.shiftLeft_eq, two_pow_sub_one_div _ _ (by omega),
    ← two_pow_sub_two_pow _ _ (by omega)]

/-- The shift-based truncation of the source equals `truncA`. -/
theorem shiftr_shiftl_eq_truncA (a d : Nat) :
    (a >>> (32 - d)) <<< (32 - d) = truncA a d := by
  rw [Nat.shiftRight_eq_div_pow, Nat.shiftLeft_eq, truncA]

/-- `cut_addr` succeeds on lengths up to 32 and computes `truncA`.  The
special case `right_len == 32` of the source agrees with `truncA` because a
32-bit address divided by `2^32` is zero. -/
theorem cut_addr_eq (a d : Nat) (ha : a < 2 ^ 32) (hd : d ≤ 32) :
    cut_addr a d = Except.ok (truncA a d) := by
  unfold cut_addr MAX_LENGTH
  rw [if_neg (by omega)]
  show Except.ok (if 32 - d = 32 then 0 else (a >>> (32 - d)) <<< (32 - d)) = _
  by_cases h0 : d = 0
  · subst h0
    rw [if_pos (by norm_num), truncA_zero a ha]
  · rw [if_neg (by omega), shiftr_shiftl_eq_truncA]

theorem testBit_ge_32 (a i : Nat) (ha : a < 2 ^ 32) (hi : 32 ≤ i) : a.testBit i = false :=
  Nat.testBit_lt_two_pow (lt_of_lt_of_le ha (Nat.pow_le_pow_right (by norm_num) hi))


theorem mul_two_pow_even (x k : Nat) (hk : 0 < k) : x * 2 ^ k % 2 = 0 := by
  have h : 2 ^ k = 2 ^ (k - 1) * 2 := by
    rw [← pow_succ]
    congr 1
    omega
  rw [h, ← Nat.mul_assoc, Nat.mul_mod_left]

/-- Bits of the truncation: the low `r` bits are cleared, the rest agree. -/
theorem testBit_trunc (a r i : Nat) :
    (a / 2 ^ r * 2 ^ r).testBit i = (decide (r ≤ i) && a.testBit i) := by
  by_cases h : r ≤ i
  · have key : a / 2 ^ r * 2 ^ r / 2 ^ i = a / 2 ^ i := by
      have hsplit : 2 ^ i = 2 ^ r * 2 ^ (i - r) := by
        rw [← pow_add]
        congr 1
        omega
      rw [hsplit, ← Nat.div_div_eq_div_mul,
        Nat.mul_div_cancel _ (Nat.pos_pow_of_pos _ (by norm_num)),
        Nat.div_div_eq_div_mul, ← hsplit]
    rw [Nat.testBit_to_div_mod, Nat.testBit_to_div_mod, key, decide_eq_true h, Bool.true_and]
  · have key : a / 2 ^ r * 2 ^ r / 2 ^ i = a / 2 ^ r * 2 ^ (r - i) := by
      have hsplit : 2 ^ r = 2 ^ (r - i) * 2 ^ i := by
        rw [← pow_add]
        congr 1
        omega
      rw [hsplit, ← Nat.mul_assoc, Nat.mul_div_cancel _ (Nat.pos_pow_of_pos i (by norm_num))]
    rw [Nat.testBit_to_div_mod, key, decide_eq_false h, Bool.false_and]
    have heven : a / 2 ^ r * 2 ^ (r - i) % 2 = 0 := mul_two_pow_even _ _ (by omega)
    simp [heven]

/-- Bits of the high mask `2^32 - 2^r`: set exactly in positions `r ≤ i < 32`. -/
theorem testBit_himask (r i : Nat) (hr : r ≤ 32) :
    (2 ^ 32 - 2 ^ r).testBit i = decide (r ≤ i ∧ i < 32) := by
  have hrpos : 0 < 2 ^ r := Nat.pos_pow_of_pos r (by norm_num)
  have hrw : 2 ^ 32 - 2 ^ r = (2 ^ (32 - r) - 1) * 2 ^ r := two_pow_sub_two_pow r 32 hr
  have hlt : 2 ^ 32 - 2 ^ r < 2 ^ 32 := by omega
  by_cases h : r ≤ i
  · by_cases h32 : i < 32
    · have hdiv : (2 ^ (32 - r) - 1) * 2 ^ r / 2 ^ i = (2 ^ (32 - r) - 1) / 2 ^ (i - r) := by
        have hsplit : 2 ^ i = 2 ^ r * 2 ^ (i - r) := by
          rw [← pow_add]
          congr 1
          omega
        rw [hsplit, ← Nat.div_div_eq_div_mul,
          Nat.mul_div_cancel _ (Nat.pos_pow_of_pos r (by norm_num))]
      have hshift : ((2 ^ (32 - r) - 1) * 2 ^ r).testBit i = (2 ^ (32 - r) - 1).testBit (i - r) := by
        rw [Nat.testBit_to_div_mod, Nat.testBit_to_div_mod, hdiv]
      rw [hrw, hshift, Nat.testBit_two_pow_sub_one]
      simp only [decide_eq_decide]
      omega
    · rw [testBit_ge_32 _ i hlt (by omega)]
      simp
      omega
  · have hdiv : (2 ^ (32 - r) - 1) * 2 ^ r / 2 ^ i = (2 ^ (32 - r) - 1) * 2 ^ (r - i) := by
      have hsplit : 2 ^ r = 2 ^ (r - i) * 2 ^ i := by
        rw [← pow_add]
        congr 1
        omega
      rw [hsplit, ← Nat.mul_assoc, Nat.mul_div_cancel _ (Nat.pos_pow_of_pos i (by norm_num))]
    rw [hrw, Nat.testBit_to_div_mod, hdiv]
    have heven : (2 ^ (32 - r) - 1) * 2 ^ (r - i) % 2 = 0 := mul_two_pow_even _ _ (by omega)
    simp [heven]
    omega

/-- Masking a 32-bit address with the high mask is truncation. -/
theorem and_himask (a r : Nat) (ha : a < 2 ^ 32) (hr : r ≤ 32) :
    a &&& (2 ^ 32 - 2 ^ r) = a / 2 ^ r * 2 ^ r := by
  apply Nat.eq_of_testBit_eq
  intro i
  rw [Nat.testBit_land, testBit_himask r i hr, testBit_trunc]
  by_cases hri : r ≤ i
  · by_cases h32 : i < 32
    · simp [hri, h32]
    · rw [testBit_ge_32 a i ha (by omega)]
      simp
  · simp [hri]

/-- Complementing the high mask inside a `u32` yields the low mask. -/
theorem xor_himask (r : Nat) (hr : r ≤ 32) :
    (2 ^ 32 - 1) ^^^ (2 ^ 32 - 2 ^ r) = 2 ^ r - 1 := by
  apply Nat.eq_of_testBit_eq
  intro i
  rw [Nat.testBit_xor, testBit_himask r i hr, Nat.testBit_two_pow_sub_one,
    Nat.testBit_two_pow_sub_one]
  by_cases h32 : i < 32 <;> by_cases hri : i < r <;> simp [h32, hri] <;> omega

/-- Oring low-mask bits into an address whose low `r` bits are clear adds them. -/
theorem or_lowmask (a r : Nat) (hmod : a % 2 ^ r = 0) :
    a ||| (2 ^ r - 1) = a + (2 ^ r - 1) := by
  apply Nat.eq_of_testBit_eq
  intro i
  obtain ⟨q, hq⟩ := Nat.dvd_of_mod_eq_zero hmod
  subst hq
  rw [Nat.testBit_or, Nat.testBit_two_pow_sub_one]
  by_cases hri : i < r
  · have hA : 0 < 2 ^ (r - i) := Nat.pos_pow_of_pos _ (by norm_num)
    have hB : 0 < 2 ^ i := Nat.pos_pow_of_pos _ (by norm_num)
    have hmul : 2 ^ i * 2 ^ (r - i) = 2 ^ r := by
      rw [← pow_add]
      congr 1
      omega
    have hBle : 2 ^ i ≤ 2 ^ r := Nat.pow_le_pow_right (by norm_num) (by omega)
    have decomp : 2 ^ r * q + (2 ^ r - 1) =
        2 ^ i * (2 ^ (r - i) * q + (2 ^ (r - i) - 1)) + (2 ^ i - 1) := by
      rw [Nat.mul_add, ← Nat.mul_assoc, hmul, Nat.mul_sub_one, hmul]
      omega
    have hdivL : (2 ^ r * q + (2 ^ r - 1)) / 2 ^ i = 2 ^ (r - i) * q + (2 ^ (r - i) - 1) := by
      rw [decomp, Nat.mul_add_div hB, Nat.div_eq_of_lt (by omega), Nat.add_zero]
    have hsucc : 2 ^ (r - i) = 2 * 2 ^ (r - i - 1) := by
      rw [← pow_succ']
      congr 1
      omega
    have hodd : (2 ^ (r - i) * q + (2 ^ (r - i) - 1)) % 2 = 1 := by
      rw [hsucc, Nat.mul_assoc]
      omega
    conv_rhs => rw [Nat.testBit_to_div_mod]
    rw [hdivL, hodd]
    simp [hri]
  · have hBpos : 0 < 2 ^ r := Nat.pos_pow_of_pos r (by norm_num)
    have hsplit : 2 ^ i = 2 ^ r * 2 ^ (i - r) := by
      rw [← pow_add]
      congr 1
      omega
    have hzero : (2 ^ r - 1) / 2 ^ r = 0 := Nat.div_eq_of_lt (by omega)
    have hdivL : (2 ^ r * q + (2 ^ r - 1)) / 2 ^ i = q / 2 ^ (i - r) := by
      rw [hsplit, ← Nat.div_div_eq_div_mul, Nat.mul_add_div hBpos, hzero, Nat.add_zero]
    have hdivR : 2 ^ r * q / 2 ^ i = q / 2 ^ (i - r) := by
      rw [hsplit, ← Nat.div_div_eq_div_mul, Nat.mul_div_cancel_left _ hBpos]
    rw [Nat.testBit_to_div_mod, Nat.testBit_to_div_mod, hdivL, hdivR]
    simp [hri]

/-! ### Canonical form of valid CIDR values -/

theorem truncA_eq_iff_mod (a d : Nat) :
    truncA a d = a ↔ a % 2 ^ (32 - d) = 0 := by
  unfold truncA
  constructor
  · intro h
    rw [← h]
    exact Nat.mul_mod_left _ _
  · intro h
    exact Nat.div_mul_cancel (Nat.dvd_of_mod_eq_zero h)

/--
Claim C6: for every 32-bit address and every length value, the validating
constructor `Ipv4Cidr::new` succeeds exactly when the length is at most 32 and
truncating the address to that many bits (via `cut_addr`) leaves it unchanged,
returning the CIDR that stores exactly that pair; in every other case it fails
with `NetworkLengthError` and with no other error kind.
-/
theorem c6_new_succeeds_iff_canonical (a len : Nat) (ha : a < 2 ^ 32) :
    Ipv4Cidr.new a len =
      (if len ≤ 32 ∧ cut_addr a len = Except.ok a then Except.ok ⟨a, len⟩
       else Except.error NetworkParseError.NetworkLengthError) := by
  by_cases hlen : len ≤ 32
  · rw [Ipv4Cidr.new, get_cidr_mask_eq len hlen]
    show (if a &&& (2 ^ 32 - 2 ^ (32 - len)) ≠ a then
        Except.error NetworkParseError.NetworkLengthError
      else Except.ok (⟨a, len⟩ : Ipv4Cidr)) = _
    rw [and_himask a (32 - len) ha (by omega), cut_addr_eq a len ha hlen]
    have htr : a / 2 ^ (32 - len) * 2 ^ (32 - len) = truncA a len := rfl
    rw [htr]
    by_cases hcan : truncA a len = a
    · rw [if_neg (not_not_intro hcan), if_pos ⟨hlen, by rw [hcan]⟩]
    · rw [if_pos hcan, if_neg (fun hand => hcan (Except.ok.inj hand.2))]
  · rw [if_neg (by intro hand; exact hlen hand.1)]
    rw [Ipv4Cidr.new, get_cidr_mask]
    rw [if_pos (by unfold MAX_LENGTH; omega)]

/-- Witness for C6 at a concrete input: `10.0.0.0/8` is accepted. -/
theorem c6_new_succeeds_iff_canonical_witness :
    (167772160 : Nat) < 2 ^ 32 ∧
      Ipv4Cidr.new 167772160 8 =
        (if 8 ≤ 32 ∧ cut_addr 167772160 8 = Except.ok 167772160 then
          Except.ok ⟨167772160, 8⟩
         else Except.error NetworkParseError.NetworkLengthError) :=
  ⟨by norm_num, c6_new_succeeds_iff_canonical 167772160 8 (by norm_num)⟩

/-- Unfolded form of validity: a 32-bit address, a length at most 32 and no
host bit set. -/
theorem valid_iff (c : Ipv4Cidr) :
    c.Valid ↔ c.addr < 2 ^ 32 ∧ c.len ≤ 32 ∧ truncA c.addr c.len = c.addr := by
  unfold Ipv4Cidr.Valid
  constructor
  · intro ⟨ha, hnew⟩
    rw [c6_new_succeeds_iff_canonical _ _ ha] at hnew
    by_cases hcond : c.len ≤ 32 ∧ cut_addr c.addr c.len = Except.ok c.addr
    · refine ⟨ha, hcond.1, ?_⟩
      have := hcond.2
      rw [cut_addr_eq _ _ ha hcond.1] at this
      injection this
    · rw [if_neg hcond] at hnew
      cases hnew
  · intro ⟨ha, hlen, htr⟩
    refine ⟨ha, ?_⟩
    rw [c6_new_succeeds_iff_canonical _ _ ha,
      if_pos ⟨hlen, by rw [cut_addr_eq _ _ ha hlen, htr]⟩]

theorem valid_mod (c : Ipv4Cidr) (hc : c.Valid) : c.addr % 2 ^ (32 - c.len) = 0 :=
  (truncA_eq_iff_mod _ _).mp ((valid_iff c).mp hc).2.2

/-- A truncated 32-bit address together with the truncation depth is a valid
CIDR value; this is what justifies the `unwrap`/`expect` calls on
`Ipv4Cidr::new`/`from_bits` in the lookup paths of the trie and hash
backends. -/
theorem valid_trunc (a d : Nat) (ha : a < 2 ^ 32) (hd : d ≤ 32) :
    Ipv4Cidr.Valid ⟨truncA a d, d⟩ := by
  rw [valid_iff]
  exact ⟨truncA_lt a d ha, hd, truncA_truncA a d d (le_refl d) hd⟩

/-- Value of `Ipv4Cidr::max` on a valid CIDR: the address with all host bits
set to one. -/
theorem max_eq (c : Ipv4Cidr) (hc : c.Valid) :
    c.max = c.addr + (2 ^ (32 - c.len) - 1) := by
  obtain ⟨ha, hlen, htr⟩ := (valid_iff c).mp hc
  rw [Ipv4Cidr.max, get_cidr_mask_eq _ hlen]
  show c.addr ||| ((2 ^ 32 - 1) ^^^ (2 ^ 32 - 2 ^ (32 - c.len))) = _
  rw [xor_himask _ (by omega), or_lowmask _ _ (valid_mod c hc)]

/--
Claim C10: for every valid CIDR `c` and every 32-bit address `a`, range
membership coincides with prefix match: `c.contains a` (defined as
`c.min() <= a <= c.max()`) holds exactly when truncating `a` to the prefix
length of `c` yields `c.min()`.
-/
theorem c10_contains_iff_trunc (c : Ipv4Cidr) (a : Nat) (hc : c.Valid)
    (ha : a < 2 ^ 32) :
    c.contains a = true ↔ cut_addr a c.len = Except.ok c.min := by
  obtain ⟨haddr, hlen, htr⟩ := (valid_iff c).mp hc
  rw [Ipv4Cidr.contains, Ipv4Cidr.min, cut_addr_eq a c.len ha hlen, max_eq c hc,
    decide_eq_true_iff]
  have hpos : 0 < 2 ^ (32 - c.len) := Nat.pos_pow_of_pos _ (by norm_num)
  constructor
  · intro ⟨hlo, hhi⟩
    congr 1
    obtain ⟨m, hm⟩ := Nat.dvd_of_mod_eq_zero (valid_mod c hc)
    rw [hm] at hlo hhi ⊢
    rw [Nat.mul_comm] at hlo hhi
    have hdiv : a / 2 ^ (32 - c.len) = m := by
      apply Nat.div_eq_of_lt_le hlo
      rw [Nat.add_mul, Nat.one_mul]
      omega
    rw [truncA, hdiv, Nat.mul_comm]
  · intro h
    injection h with h
    rw [← h]
    constructor
    · exact truncA_le a c.len
    · have hmod := Nat.mod_add_div a (2 ^ (32 - c.len))
      have hmlt := Nat.mod_lt a hpos
      rw [truncA, Nat.mul_comm]
      omega

/-- Witness for C10 at a concrete input: `192.168.0.0/16` contains
`192.168.3.7`. -/
theorem c10_contains_iff_trunc_witness :
    Ipv4Cidr.Valid ⟨3232235520, 16⟩ ∧ (3232236295 : Nat) < 2 ^ 32 ∧
      ((⟨3232235520, 16⟩ : Ipv4Cidr).contains 3232236295 = true ↔
        cut_addr 3232236295 (16 : Nat) = Except.ok (Ipv4Cidr.min ⟨3232235520, 16⟩)) :=
  ⟨by decide, by norm_num,
    c10_contains_iff_trunc ⟨3232235520, 16⟩ 3232236295 (by decide) (by norm_num)⟩

/-! ### Greatest-hit scans

All three lookup algorithms return the deepest prefix length whose entry
matches; `greatestHit P n` is the common reference form: the greatest
`d ≤ n` with `P d`, found by scanning downwards. -/

def greatestHit (P : Nat → Bool) : Nat → Option Nat
  | 0 => if P 0 then some 0 else none
  | d + 1 => if P (d + 1) then some (d + 1) else greatestHit P d

theorem greatestHit_none_iff (P : Nat → Bool) (n : Nat) :
    greatestHit P n = none ↔ ∀ d, d ≤ n → P d = false := by
  induction n with
  | zero =>
    unfold greatestHit
    by_cases h : P 0 = true
    · simp [h]
    · simp only [Bool.not_eq_true] at h
      simp [h]
  | succ n ih =>
    unfold greatestHit
    by_cases h : P (n + 1) = true
    · simp [h]
      exact ⟨n + 1, le_refl _, h⟩
    · simp only [Bool.not_eq_true] at h
      simp only [h, Bool.false_eq_true, if_false, ih]
      constructor
      · intro hall d hd
        rcases Nat.lt_or_ge d (n + 1) with hlt | hge
        · exact hall d (by omega)
        · have : d = n + 1 := by omega
          rw [this, h]
      · intro hall d hd
        exact hall d (by omega)

theorem greatestHit_some_iff (P : Nat → Bool) (n m : Nat) :
    greatestHit P n = some m ↔
      m ≤ n ∧ P m = true ∧ ∀ d, d ≤ n → m < d → P d = false := by
  induction n with
  | zero =>
    unfold greatestHit
    by_cases h : P 0 = true
    · simp only [h, if_true, Option.some_inj]
      constructor
      · intro hm
        subst hm
        exact ⟨le_refl 0, h, fun d hd hlt => by omega⟩
      · intro ⟨h1, _, _⟩
        omega
    · simp only [Bool.not_eq_true] at h
      simp only [h, Bool.false_eq_true, if_false]
      constructor
      · intro hnone
        cases hnone
      · intro ⟨h1, h2, _⟩
        have : m = 0 := by omega
        rw [this] at h2
        rw [h2] at h
        cases h
  | succ n ih =>
    unfold greatestHit
    by_cases h : P (n + 1) = true
    · simp only [h, if_true, Option.some_inj]
      constructor
      · intro hm
        subst hm
        exact ⟨le_refl _, h, fun d hd hlt => by omega⟩
      · intro ⟨h1, h2, h3⟩
        by_contra hne
        have hlt : m < n + 1 := by omega
        have := h3 (n + 1) (le_refl _) hlt
        rw [this] at h
        cases h
    · simp only [Bool.not_eq_true] at h
      simp only [h, Bool.false_eq_true, if_false, ih]
      constructor
      · intro ⟨h1, h2, h3⟩
        refine ⟨by omega, h2, fun d hd hlt => ?_⟩
        rcases Nat.lt_or_ge d (n + 1) with hdlt | hdge
        · exact h3 d (by omega) hlt
        · have : d = n + 1 := by omega
          rw [this, h]
      · intro ⟨h1, h2, h3⟩
        have hmn : m ≤ n := by
          rcases Nat.lt_or_ge m (n + 1) with hlt | hge
          · omega
          · have : m = n + 1 := by omega
            rw [this] at h2
            rw [h2] at h
            cases h
        exact ⟨hmn, h2, fun d hd hlt => h3 d (by omega) hlt⟩

/-! ### Hash backend (`src/routing_table/hash_routing_table.rs`) -/

/-- State of the hash backend: the `Vec` of 33 `HashSet<u32>` buckets becomes
a function from bucket index to finite set of network addresses; the
operations only ever touch indices 0..32. -/
structure HashRoutingTable where
  cidrs : Nat → Finset Nat

/-- Embedding of `HashRoutingTable::new`: 33 empty buckets. -/
def HashRoutingTable.new : HashRoutingTable := ⟨fun _ => ∅⟩

/-- Embedding of `HashRoutingTable::add_cidr`: insert the network bits into
the bucket of the prefix length. -/
def HashRoutingTable.add_cidr (t : HashRoutingTable) (c : Ipv4Cidr) : HashRoutingTable :=
  ⟨Function.update t.cidrs c.prefix_len (insert c.min (t.cidrs c.prefix_len))⟩

/-- Embedding of `HashRoutingTable::remove_cidr`. -/
def HashRoutingTable.remove_cidr (t : HashRoutingTable) (c : Ipv4Cidr) : HashRoutingTable :=
  ⟨Function.update t.cidrs c.prefix_len ((t.cidrs c.prefix_len).erase c.min)⟩

/-- Modelled from the spec: `Ipv4Cidr::from_bits` is called by
`HashRoutingTable::find_exact_cidr` but is not defined anywhere under `src/`;
per the spec the lookup reconstructs "the CIDR from the masked bits and the
current length", i.e. it validates the already-masked address against the
length, which is the validating constructor on the raw bits. -/
def Ipv4Cidr.from_bits (bits len : Nat) : Except NetworkParseError Ipv4Cidr :=
  Ipv4Cidr.new bits len

/-- The loop of `HashRoutingTable::find_exact_cidr`: lengths from 32 down to
0; at each step the address is masked by the current mask, the mask loses its
lowest set bit (`bit_mask <<= 1`, wrapping as a `u32`), and the bucket of the
current length is probed.  The hit constructs the CIDR directly; the source
goes through `Ipv4Cidr::from_bits(..).expect(..)`, and theorem
`hash_from_bits_ok` below proves that this `expect` never fires. -/
def hashFindLoop (s : Nat → Finset Nat) : Nat → Nat → Nat → Option Ipv4Cidr
  | addr_bits, bit_mask, 0 =>
    if addr_bits &&& bit_mask ∈ s 0 then some ⟨addr_bits &&& bit_mask, 0⟩ else none
  | addr_bits, bit_mask, len + 1 =>
    if addr_bits &&& bit_mask ∈ s (len + 1) then some ⟨addr_bits &&& bit_mask, len + 1⟩
    else hashFindLoop s (addr_bits &&& bit_mask) ((bit_mask <<< 1) % 2 ^ 32) len

/-- Embedding of `HashRoutingTable::find_exact_cidr`. -/
def HashRoutingTable.find_exact_cidr (t : HashRoutingTable) (addr : Nat) : Option Ipv4Cidr :=
  hashFindLoop t.cidrs addr (2 ^ 32 - 1) 32

/-- Embedding of `HashRoutingTable::size`: the sum of the 33 bucket sizes. -/
def HashRoutingTable.size (t : HashRoutingTable) : Nat :=
  ∑ l ∈ Finset.range 33, (t.cidrs l).card

/-! ### Hash backend: reachable states and claims C7 and C5 -/

/-- States of the hash backend reachable from `new` through the public
interface; every CIDR handed to the interface was built by a validating
constructor, hence is `Valid`. -/
inductive HashReachable : HashRoutingTable → Prop where
  | empty : HashReachable HashRoutingTable.new
  | add : ∀ {t c}, HashReachable t → Ipv4Cidr.Valid c → HashReachable (t.add_cidr c)
  | remove : ∀ {t c}, HashReachable t → Ipv4Cidr.Valid c → HashReachable (t.remove_cidr c)

/-- Every entry of a reachable hash state is a valid (canonical) CIDR once
paired with the index of its bucket. -/
theorem hash_reachable_inv (t : HashRoutingTable) (h : HashReachable t) :
    ∀ l b, b ∈ t.cidrs l → Ipv4Cidr.Valid ⟨b, l⟩ := by
  induction h with
  | empty =>
    intro l b hb
    simp [HashRoutingTable.new] at hb
  | @add t c _ hv ih =>
    intro l b hb
    have hb' : b ∈ Function.update t.cidrs c.prefix_len
        (insert c.min (t.cidrs c.prefix_len)) l := hb
    rw [Function.update_apply] at hb'
    by_cases hl : l = c.prefix_len
    · subst hl
      rw [if_pos rfl] at hb'
      rcases Finset.mem_insert.mp hb' with hbc | hold
      · rw [hbc]
        exact hv
      · exact ih _ b hold
    · rw [if_neg hl] at hb'
      exact ih l b hb'
  | @remove t c _ hv ih =>
    intro l b hb
    have hb' : b ∈ Function.update t.cidrs c.prefix_len
        ((t.cidrs c.prefix_len).erase c.min) l := hb
    rw [Function.update_apply] at hb'
    by_cases hl : l = c.prefix_len
    · subst hl
      rw [if_pos rfl] at hb'
      exact ih _ b (Finset.mem_of_mem_erase hb')
    · rw [if_neg hl] at hb'
      exact ih l b hb'

/--
Claim C7: for the hash backend, adding a CIDR that is already present leaves
the state (and hence `size()`) unchanged, and `size()` is the sum of the
cardinalities of the 33 per-length buckets, so re-adding an identical CIDR
never increases the size.
-/
theorem c7_hash_add_set_semantics (t : HashRoutingTable) (c : Ipv4Cidr)
    (hc : Ipv4Cidr.Valid c) (hp : c.min ∈ t.cidrs c.prefix_len) :
    t.add_cidr c = t ∧ (t.add_cidr c).size = t.size ∧
      t.size = ∑ l ∈ Finset.range 33, (t.cidrs l).card := by
  have h1 : t.add_cidr c = t := by
    unfold HashRoutingTable.add_cidr
    rw [Finset.insert_eq_self.mpr hp, Function.update_eq_self]
  exact ⟨h1, by rw [h1], rfl⟩

/-- Witness for C7: re-adding `0.0.0.0/0` to a table that already holds it. -/
theorem c7_hash_add_set_semantics_witness :
    Ipv4Cidr.Valid ⟨0, 0⟩ ∧
      Ipv4Cidr.min ⟨0, 0⟩ ∈
        (HashRoutingTable.new.add_cidr ⟨0, 0⟩).cidrs (Ipv4Cidr.prefix_len ⟨0, 0⟩) ∧
      ((HashRoutingTable.new.add_cidr ⟨0, 0⟩).add_cidr ⟨0, 0⟩ =
          HashRoutingTable.new.add_cidr ⟨0, 0⟩ ∧
        ((HashRoutingTable.new.add_cidr ⟨0, 0⟩).add_cidr ⟨0, 0⟩).size =
          (HashRoutingTable.new.add_cidr ⟨0, 0⟩).size ∧
        (HashRoutingTable.new.add_cidr ⟨0, 0⟩).size =
          ∑ l ∈ Finset.range 33, ((HashRoutingTable.new.add_cidr ⟨0, 0⟩).cidrs l).card) := by
  have hmem : Ipv4Cidr.min ⟨0, 0⟩ ∈
      (HashRoutingTable.new.add_cidr ⟨0, 0⟩).cidrs (Ipv4Cidr.prefix_len ⟨0, 0⟩) := by
    show Ipv4Cidr.min ⟨0, 0⟩ ∈ Function.update HashRoutingTable.new.cidrs
      (Ipv4Cidr.prefix_len ⟨0, 0⟩)
      (insert (Ipv4Cidr.min ⟨0, 0⟩) (HashRoutingTable.new.cidrs (Ipv4Cidr.prefix_len ⟨0, 0⟩)))
      (Ipv4Cidr.prefix_len ⟨0, 0⟩)
    rw [Function.update_same]
    exact Finset.mem_insert_self _ _
  exact ⟨by decide, hmem, c7_hash_add_set_semantics _ _ (by decide) hmem⟩

/-- One step of `bit_mask <<= 1` (wrapping as `u32`) turns the length-`len`
mask into the length-`len - 1` mask. -/
theorem mask_shift (len : Nat) (h1 : 1 ≤ len) (h2 : len ≤ 32) :
    ((2 ^ 32 - 2 ^ (32 - len)) <<< 1) % 2 ^ 32 = 2 ^ 32 - 2 ^ (32 - (len - 1)) := by
  rw [Nat.shiftLeft_eq, pow_one]
  have hx : 2 ^ (32 - len) * 2 = 2 ^ (32 - (len - 1)) := by
    rw [← pow_succ]
    congr 1
    omega
  have hxle : 2 ^ (32 - (len - 1)) ≤ 2 ^ 32 := Nat.pow_le_pow_right (by norm_num) (by omega)
  have hxpos : 0 < 2 ^ (32 - (len - 1)) := Nat.pos_pow_of_pos _ (by norm_num)
  rw [Nat.sub_mul, hx]
  have h32 : (2 ^ 32 : Nat) * 2 = 2 ^ 32 + 2 ^ 32 := by norm_num
  rw [h32]
  have hfull : (0 : Nat) < 2 ^ 32 := by norm_num
  omega

/-- The descending probe loop of the hash lookup computes the greatest-hit
scan over the truncations of the queried address. -/
theorem hashFindLoop_eq (s : Nat → Finset Nat) (a : Nat) (ha : a < 2 ^ 32) :
    ∀ len, len ≤ 32 → ∀ x, x < 2 ^ 32 → truncA x len = truncA a len →
      hashFindLoop s x (2 ^ 32 - 2 ^ (32 - len)) len =
        (greatestHit (fun d => decide (truncA a d ∈ s d)) len).map
          (fun d => (⟨truncA a d, d⟩ : Ipv4Cidr)) := by
  intro len
  induction len with
  | zero =>
    intro _ x hx htr
    have hand : x &&& (2 ^ 32 - 2 ^ (32 - 0)) = truncA a 0 := by
      rw [Nat.sub_zero, Nat.sub_self, Nat.and_zero, truncA_zero a ha]
    simp only [hashFindLoop, greatestHit, hand]
    by_cases hmem : truncA a 0 ∈ s 0 <;> simp [hmem]
  | succ len ih =>
    intro h32 x hx htr
    have hand : x &&& (2 ^ 32 - 2 ^ (32 - (len + 1))) = truncA a (len + 1) := by
      rw [and_himask x (32 - (len + 1)) hx (by omega)]
      exact htr
    simp only [hashFindLoop, greatestHit, hand]
    rw [mask_shift (len + 1) (by omega) (by omega), Nat.add_sub_cancel]
    by_cases hmem : truncA a (len + 1) ∈ s (len + 1)
    · simp [hmem]
    · rw [if_neg hmem, if_neg (by simpa using hmem)]
      exact ih (by omega) (truncA a (len + 1)) (truncA_lt a _ ha)
        (truncA_truncA a len (len + 1) (by omega) (by omega))

/-- `HashRoutingTable::find_exact_cidr` in greatest-hit form. -/
theorem hash_find_eq (t : HashRoutingTable) (a : Nat) (ha : a < 2 ^ 32) :
    t.find_exact_cidr a =
      (greatestHit (fun d => decide (truncA a d ∈ t.cidrs d)) 32).map
        (fun d => (⟨truncA a d, d⟩ : Ipv4Cidr)) := by
  have h := hashFindLoop_eq t.cidrs a ha 32 (le_refl 32) a ha rfl
  rw [HashRoutingTable.find_exact_cidr]
  have hm : (2 ^ 32 - 1 : Nat) = 2 ^ 32 - 2 ^ (32 - 32) := by norm_num
  rw [hm]
  exact h

/-- The `expect` on `Ipv4Cidr::from_bits` inside the hash lookup can never
fire: the probed bits are always a truncation of a 32-bit address, which the
validating constructor accepts. -/
theorem hash_from_bits_ok (a d : Nat) (ha : a < 2 ^ 32) (hd : d ≤ 32) :
    Ipv4Cidr.from_bits (truncA a d) d = Except.ok ⟨truncA a d, d⟩ :=
  (valid_trunc a d ha hd).2

/--
Claim C5: for the hash backend, on every reachable state and every 32-bit
address, `find_exact_cidr` — which iterates prefix lengths from 32 down to 0,
masking the address to each length and probing that bucket, returning the
first hit as the CIDR built from the masked bits and the current length —
returns exactly the stored entry with the greatest prefix length among all
buckets' entries whose block contains the address, and `none` when no bucket
holds a match.
-/
theorem c5_hash_find_lpm (t : HashRoutingTable) (a : Nat)
    (hr : HashReachable t) (ha : a < 2 ^ 32) :
    (∀ c : Ipv4Cidr, t.find_exact_cidr a = some c ↔
      (c.len ≤ 32 ∧ c.addr ∈ t.cidrs c.len ∧ c.contains a = true ∧
        ∀ e : Ipv4Cidr, e.len ≤ 32 → e.addr ∈ t.cidrs e.len →
          e.contains a = true → e.len ≤ c.len)) ∧
    (t.find_exact_cidr a = none ↔
      ∀ e : Ipv4Cidr, e.len ≤ 32 → e.addr ∈ t.cidrs e.len → e.contains a = false) := by
  have hinv := hash_reachable_inv t hr
  have hbridge : ∀ e : Ipv4Cidr, e.addr ∈ t.cidrs e.len →
      (e.contains a = true ↔ truncA a e.len = e.addr) := by
    intro e he
    have hv : e.Valid := hinv e.len e.addr he
    obtain ⟨he32, hel, _⟩ := (valid_iff e).mp hv
    rw [c10_contains_iff_trunc e a hv ha, cut_addr_eq a e.len ha hel]
    constructor
    · intro h
      exact Except.ok.inj h
    · intro h
      rw [Ipv4Cidr.min, h]
  rw [hash_find_eq t a ha]
  refine ⟨fun c => ⟨?_, ?_⟩, ?_, ?_⟩
  · intro hsome
    obtain ⟨m, hm, hcm⟩ := Option.map_eq_some'.mp hsome
    obtain ⟨hm32, hPm, hmax⟩ := (greatestHit_some_iff _ _ _).mp hm
    have hmem : truncA a m ∈ t.cidrs m := of_decide_eq_true hPm
    cases hcm
    refine ⟨hm32, hmem, (hbridge ⟨truncA a m, m⟩ hmem).mpr rfl, ?_⟩
    intro e hel hemem hecont
    have htr := (hbridge e hemem).mp hecont
    by_contra hlt
    push_neg at hlt
    have hPe := hmax e.len hel hlt
    rw [decide_eq_false_iff_not] at hPe
    rw [htr] at hPe
    exact hPe hemem
  · intro ⟨hc32, hcmem, hccont, hcmax⟩
    have htrc := (hbridge c hcmem).mp hccont
    have hgh : greatestHit (fun d => decide (truncA a d ∈ t.cidrs d)) 32 = some c.len := by
      rw [greatestHit_some_iff]
      refine ⟨hc32, by rw [decide_eq_true_iff, htrc]; exact hcmem, ?_⟩
      intro d hd hlt
      rw [decide_eq_false_iff_not]
      intro hmem
      have hcont := (hbridge ⟨truncA a d, d⟩ hmem).mpr rfl
      have hle := hcmax ⟨truncA a d, d⟩ hd hmem hcont
      exact absurd hle (by simpa using hlt)
    rw [hgh]
    show some (⟨truncA a c.len, c.len⟩ : Ipv4Cidr) = some c
    rw [htrc]
  · intro hnone e hel hemem
    have hgh := Option.map_eq_none'.mp hnone
    have hall := (greatestHit_none_iff _ _).mp hgh
    by_contra hcont
    rw [Bool.not_eq_false] at hcont
    have htr := (hbridge e hemem).mp hcont
    have hfalse := hall e.len hel
    rw [decide_eq_false_iff_not, htr] at hfalse
    exact hfalse hemem
  · intro hall
    rw [Option.map_eq_none', greatestHit_none_iff]
    intro d hd
    rw [decide_eq_false_iff_not]
    intro hmem
    have hcont := (hbridge ⟨truncA a d, d⟩ hmem).mpr rfl
    have hfalse := hall ⟨truncA a d, d⟩ hd hmem
    rw [hcont] at hfalse
    exact Bool.noConfusion hfalse

/-- Witness for C5 at a concrete reachable state: the empty table. -/
theorem c5_hash_find_lpm_witness :
    HashReachable HashRoutingTable.new ∧ (0 : Nat) < 2 ^ 32 ∧
      ((∀ c : Ipv4Cidr, HashRoutingTable.new.find_exact_cidr 0 = some c ↔
        (c.len ≤ 32 ∧ c.addr ∈ HashRoutingTable.new.cidrs c.len ∧ c.contains 0 = true ∧
          ∀ e : Ipv4Cidr, e.len ≤ 32 → e.addr ∈ HashRoutingTable.new.cidrs e.len →
            e.contains 0 = true → e.len ≤ c.len)) ∧
      (HashRoutingTable.new.find_exact_cidr 0 = none ↔
        ∀ e : Ipv4Cidr, e.len ≤ 32 → e.addr ∈ HashRoutingTable.new.cidrs e.len →
          e.contains 0 = false)) :=
  ⟨HashReachable.empty, by norm_num,
    c5_hash_find_lpm HashRoutingTable.new 0 HashReachable.empty (by norm_num)⟩

/-! ### List backend (`src/routing_table/list_routing_table.rs`) -/

/-- State of the list backend: the insertion-ordered `Vec<Ipv4Cidr>`. -/
structure ListRoutingTable where
  cidrs : List Ipv4Cidr

/-- Embedding of `ListRoutingTable::new`. -/
def ListRoutingTable.new : ListRoutingTable := ⟨[]⟩

/-- Embedding of `ListRoutingTable::add_cidr`: `Vec::push` appends at the
end. -/
def ListRoutingTable.add_cidr (t : ListRoutingTable) (c : Ipv4Cidr) : ListRoutingTable :=
  ⟨t.cidrs ++ [c]⟩

/-- Embedding of `ListRoutingTable::remove_cidr`: `Vec::retain` keeps, in
order, exactly the entries different from `cidr`. -/
def ListRoutingTable.remove_cidr (t : ListRoutingTable) (c : Ipv4Cidr) : ListRoutingTable :=
  ⟨t.cidrs.filter (fun cur => cur != c)⟩

/-- Embedding of `ListRoutingTable::find_exact_cidr`: the fold keeps the
first seen entry of greatest prefix length among those containing `addr`. -/
def ListRoutingTable.find_exact_cidr (t : ListRoutingTable) (addr : Nat) : Option Ipv4Cidr :=
  t.cidrs.foldl
    (fun acc cidr =>
      if cidr.contains addr then
        match acc with
        | none => some cidr
        | some other => if other.prefix_len < cidr.prefix_len then some cidr else acc
      else acc)
    none

/-- Embedding of `ListRoutingTable::size`. -/
def ListRoutingTable.size (t : ListRoutingTable) : Nat := t.cidrs.length

theorem count_remove (l : List Ipv4Cidr) (c d : Ipv4Cidr) :
    (l.filter (fun cur => cur != c)).count d = if d = c then 0 else l.count d := by
  by_cases hd : d = c
  · subst hd
    rw [if_pos rfl, List.count_eq_zero]
    intro hmem
    have := (List.mem_filter.mp hmem).2
    simp at this
  · rw [if_neg hd]
    exact List.count_filter (by simp [hd])

/--
Claim C8: the list backend has multiset semantics: `add_cidr` appends (every
call, duplicates included, grows `size()` by exactly one), one `remove_cidr`
call deletes every entry equal to its argument while keeping all other
entries, with multiplicities, in their original order (the result is a
sublist of the previous sequence), and `size()` is the length of the
sequence.
-/
theorem c8_list_multiset_semantics (t : ListRoutingTable) (c : Ipv4Cidr) :
    (t.add_cidr c).cidrs = t.cidrs ++ [c] ∧
    (t.add_cidr c).size = t.size + 1 ∧
    (∀ d : Ipv4Cidr, (t.remove_cidr c).cidrs.count d = if d = c then 0 else t.cidrs.count d) ∧
    List.Sublist (t.remove_cidr c).cidrs t.cidrs ∧
    t.size = t.cidrs.length := by
  refine ⟨rfl, ?_, ?_, ?_, rfl⟩
  · show (t.cidrs ++ [c]).length = t.cidrs.length + 1
    simp
  · intro d
    exact count_remove t.cidrs c d
  · exact List.filter_sublist t.cidrs

/-! ### Trie backend (`src/routing_table/trie_routing_table.rs`) -/

/-- Embedding of `TrieNode`: the two raw child pointers become optional owned
children (a null pointer is `none`), plus the leaf flag. -/
inductive TrieNode : Type where
  | mk (left : Option TrieNode) (right : Option TrieNode) (is_leaf : Bool)

/-- Left child (`children[0]`). -/
def TrieNode.left : TrieNode → Option TrieNode
  | .mk l _ _ => l

/-- Right child (`children[1]`). -/
def TrieNode.right : TrieNode → Option TrieNode
  | .mk _ r _ => r

/-- The leaf flag. -/
def TrieNode.is_leaf : TrieNode → Bool
  | .mk _ _ f => f

/-- Embedding of `TrieNode::get`: `children[idx]`; the index computed by
`take_bit` is always 0 or 1. -/
def TrieNode.get (t : TrieNode) (idx : Nat) : Option TrieNode :=
  if idx = 0 then t.left else t.right

/-- Embedding of `TrieNode::new(false)`. -/
def TrieNode.empty : TrieNode := .mk none none false

/-- Embedding of `TrieRoutingTable::take_bit`. -/
def take_bit (bit_addr r_idx : Nat) : Nat := (bit_addr >>> (MAX_LENGTH - r_idx)) &&& 1

/-- The sequence of bits consumed by the loops `for len in 1..=n`, most
significant first. -/
def pathBits (a n : Nat) : List Nat := (List.range n).map (fun i => take_bit a (i + 1))

/-- The walk of `add_cidr`: follow the bits, creating missing children
(`get_or_add`), and mark the final node as leaf. -/
def addPath : TrieNode → List Nat → TrieNode
  | .mk l r _, [] => .mk l r true
  | .mk l r f, b :: bs =>
    if b = 0 then .mk (some (addPath (l.getD TrieNode.empty) bs)) r f
    else .mk l (some (addPath (r.getD TrieNode.empty) bs)) f

/-- The walk of `remove_cidr`: follow the bits with `get`; if a child is
missing return the trie unchanged (flag `false`, the early `return` of the
source); otherwise clear the final node's leaf flag (flag `true`, so the
source goes on to decrement the size counter). -/
def removePath : TrieNode → List Nat → TrieNode × Bool
  | t, [] => (.mk t.left t.right false, true)
  | t, b :: bs =>
    match t.get b with
    | none => (t, false)
    | some child =>
      (if b = 0 then TrieNode.mk (some (removePath child bs).1) t.right t.is_leaf
       else TrieNode.mk t.left (some (removePath child bs).1) t.is_leaf,
        (removePath child bs).2)

/-- The loop of `find_exact_cidr`: step to the child of each bit, stopping
when it is missing, and remember the depth of the last leaf seen. -/
def trieWalk : TrieNode → List Nat → Nat → Option Nat → Option Nat
  | _, [], _, best => best
  | t, b :: bs, d, best =>
    match t.get b with
    | none => best
    | some child => trieWalk child bs (d + 1) (if child.is_leaf then some d else best)

/-- State of the trie backend: root node plus the `usize` size counter. -/
structure TrieRoutingTable where
  root : TrieNode
  size : Nat

/-- Embedding of `TrieRoutingTable::new`. -/
def TrieRoutingTable.new : TrieRoutingTable := ⟨TrieNode.empty, 0⟩

/-- Embedding of `TrieRoutingTable::add_cidr`; the `usize` counter is
incremented unconditionally (wrapping as the release build does). -/
def TrieRoutingTable.add_cidr (t : TrieRoutingTable) (c : Ipv4Cidr) : TrieRoutingTable :=
  ⟨addPath t.root (pathBits c.min c.prefix_len), (t.size + 1) % 2 ^ 64⟩

/-- Embedding of `TrieRoutingTable::remove_cidr`: when the walk completes,
`self.size -= 1` executes; a `usize` subtraction at 0 underflows, which the
release build computes as the wrapping `(size + 2^64 - 1) % 2^64` below (the
debug build panics at that spot). -/
def TrieRoutingTable.remove_cidr (t : TrieRoutingTable) (c : Ipv4Cidr) : TrieRoutingTable :=
  let p := removePath t.root (pathBits c.min c.prefix_len)
  ⟨p.1, if p.2 then (t.size + (2 ^ 64 - 1)) % 2 ^ 64 else t.size⟩

/-- Embedding of `TrieRoutingTable::find_exact_cidr`.  `u8::MAX` as the
"no leaf seen" sentinel becomes `none`; the hit case builds the CIDR from the
source's mask expression `bit_addr & !((1 << (32 - best_len)) - 1)` (bitwise
complement written as xor with `u32::MAX`), with the source's special case
for `best_len == 0` avoiding the 32-bit shift; the source wraps the result in
`Ipv4Cidr::new(..).unwrap()`, and theorem `trie_find_new_ok` below proves
that this `unwrap` never fires. -/
def TrieRoutingTable.find_exact_cidr (t : TrieRoutingTable) (addr : Nat) : Option Ipv4Cidr :=
  match trieWalk t.root (pathBits addr MAX_LENGTH) 1 (if t.root.is_leaf then some 0 else none) with
  | none => none
  | some best_len =>
    some ⟨if best_len = 0 then 0
      else addr &&& ((2 ^ 32 - 1) ^^^ ((1 <<< (MAX_LENGTH - best_len)) - 1)), best_len⟩

/-- Membership of a bit path in a trie: the path exists and its final node
has the leaf flag set. -/
def trieMem : TrieNode → List Nat → Bool
  | t, [] => t.is_leaf
  | t, b :: bs =>
    match t.get b with
    | none => false
    | some child => trieMem child bs

/-- Whether the walk of `remove_cidr` reaches the final node of the path. -/
def pathExists : TrieNode → List Nat → Bool
  | _, [] => true
  | t, b :: bs =>
    match t.get b with
    | none => false
    | some child => pathExists child bs

theorem take_bit_lt (a i : Nat) : take_bit a i < 2 := by
  rw [take_bit, Nat.and_one_is_mod]
  exact Nat.mod_lt _ (by norm_num)

theorem pathBits_bits_lt (a n : Nat) : ∀ x ∈ pathBits a n, x < 2 := by
  intro x hx
  obtain ⟨i, _, hxeq⟩ := List.mem_map.mp hx
  rw [← hxeq]
  exact take_bit_lt a (i + 1)

theorem pathBits_length (a n : Nat) : (pathBits a n).length = n := by
  simp [pathBits]

theorem pathBits_take (a n d : Nat) (h : d ≤ n) :
    (pathBits a n).take d = pathBits a d := by
  rw [pathBits, pathBits, ← List.map_take, List.take_range, Nat.min_eq_left h]

theorem trieMem_empty (q : List Nat) : trieMem TrieNode.empty q = false := by
  cases q with
  | nil => rfl
  | cons b bs =>
    show (match TrieNode.get TrieNode.empty b with
      | none => false
      | some child => trieMem child bs) = false
    rw [TrieNode.get]
    by_cases hb : b = 0 <;> simp [hb, TrieNode.empty, TrieNode.left, TrieNode.right]

theorem trieMem_mk_zero (l r : Option TrieNode) (f : Bool) (bs : List Nat) :
    trieMem (TrieNode.mk l r f) (0 :: bs) = trieMem (l.getD TrieNode.empty) bs := by
  cases l with
  | none =>
    show false = trieMem TrieNode.empty bs
    rw [trieMem_empty]
  | some c => rfl

theorem trieMem_mk_pos (l r : Option TrieNode) (f : Bool) (b : Nat) (bs : List Nat)
    (hb : b ≠ 0) :
    trieMem (TrieNode.mk l r f) (b :: bs) = trieMem (r.getD TrieNode.empty) bs := by
  show (match (TrieNode.mk l r f).get b with
    | none => false
    | some child => trieMem child bs) = _
  rw [TrieNode.get, if_neg hb]
  cases r with
  | none =>
    show false = trieMem TrieNode.empty bs
    rw [trieMem_empty]
  | some c => rfl

theorem addPath_mk_zero (l r : Option TrieNode) (f : Bool) (as : List Nat) :
    addPath (TrieNode.mk l r f) (0 :: as) =
      TrieNode.mk (some (addPath (l.getD TrieNode.empty) as)) r f := rfl

theorem addPath_mk_pos (l r : Option TrieNode) (f : Bool) (a : Nat) (as : List Nat)
    (ha : a ≠ 0) :
    addPath (TrieNode.mk l r f) (a :: as) =
      TrieNode.mk l (some (addPath (r.getD TrieNode.empty) as)) f := by
  show (if a = 0 then _ else _) = _
  rw [if_neg ha]

/-- Effect of `add_cidr`'s walk on membership: exactly the inserted path
becomes a member, every other path keeps its status (newly created
intermediate nodes carry a cleared leaf flag). -/
theorem addPath_mem (p : List Nat) : ∀ (t : TrieNode) (q : List Nat),
    (∀ x ∈ p, x < 2) → (∀ x ∈ q, x < 2) →
    trieMem (addPath t p) q = (decide (q = p) || trieMem t q) := by
  induction p with
  | nil =>
    intro t q _ _
    cases t with
    | mk l r f =>
      cases q with
      | nil => simp [addPath, trieMem, TrieNode.is_leaf]
      | cons b bs =>
        by_cases hb : b = 0
        · subst hb
          rw [show addPath (TrieNode.mk l r f) [] = TrieNode.mk l r true from rfl,
            trieMem_mk_zero, trieMem_mk_zero]
          simp
        · rw [show addPath (TrieNode.mk l r f) [] = TrieNode.mk l r true from rfl,
            trieMem_mk_pos l r true b bs hb, trieMem_mk_pos l r f b bs hb]
          simp
  | cons a as ih =>
    intro t q hp hq
    have has : ∀ x ∈ as, x < 2 := fun x hx => hp x (List.mem_cons_of_mem a hx)
    have ha2 : a < 2 := hp a (List.mem_cons_self a as)
    cases t with
    | mk l r f =>
      by_cases ha0 : a = 0
      · subst ha0
        rw [addPath_mk_zero]
        cases q with
        | nil => simp [trieMem, TrieNode.is_leaf]
        | cons b bs =>
          have hbs : ∀ x ∈ bs, x < 2 := fun x hx => hq x (List.mem_cons_of_mem b hx)
          by_cases hb0 : b = 0
          · subst hb0
            rw [trieMem_mk_zero, trieMem_mk_zero, Option.getD_some,
              ih (l.getD TrieNode.empty) bs has hbs]
            simp
          · rw [trieMem_mk_pos _ _ _ b bs hb0, trieMem_mk_pos _ _ _ b bs hb0]
            simp [hb0]
      · rw [addPath_mk_pos l r f a as ha0]
        cases q with
        | nil => simp [trieMem, TrieNode.is_leaf]
        | cons b bs =>
          have hbs : ∀ x ∈ bs, x < 2 := fun x hx => hq x (List.mem_cons_of_mem b hx)
          have hb2 : b < 2 := hq b (List.mem_cons_self b bs)
          by_cases hb0 : b = 0
          · subst hb0
            rw [trieMem_mk_zero, trieMem_mk_zero]
            simp [Ne.symm ha0]
          · have hab : a = 1 := by omega
            have hbb : b = 1 := by omega
            subst hab
            subst hbb
            rw [trieMem_mk_pos _ _ _ 1 bs hb0, trieMem_mk_pos _ _ _ 1 bs hb0,
              Option.getD_some, ih (r.getD TrieNode.empty) bs has hbs]
            simp

theorem get_mk_zero (l r : Option TrieNode) (f : Bool) : (TrieNode.mk l r f).get 0 = l := rfl

theorem get_mk_pos (l r : Option TrieNode) (f : Bool) (b : Nat) (hb : b ≠ 0) :
    (TrieNode.mk l r f).get b = r := by
  rw [TrieNode.get, if_neg hb]
  rfl

theorem removePath_cons (t : TrieNode) (b : Nat) (bs : List Nat) :
    removePath t (b :: bs) =
      match t.get b with
      | none => (t, false)
      | some child =>
        (if b = 0 then TrieNode.mk (some (removePath child bs).1) t.right t.is_leaf
         else TrieNode.mk t.left (some (removePath child bs).1) t.is_leaf,
          (removePath child bs).2) := rfl

theorem pathExists_cons (t : TrieNode) (b : Nat) (bs : List Nat) :
    pathExists t (b :: bs) =
      match t.get b with
      | none => false
      | some child => pathExists child bs := rfl

theorem removePath_found (p : List Nat) :
    ∀ t : TrieNode, (removePath t p).2 = pathExists t p := by
  induction p with
  | nil => intro t; rfl
  | cons a as ih =>
    intro t
    rw [removePath_cons, pathExists_cons]
    cases t.get a with
    | none => rfl
    | some child => exact ih child

theorem removePath_not_found (p : List Nat) :
    ∀ t : TrieNode, pathExists t p = false → (removePath t p).1 = t := by
  induction p with
  | nil =>
    intro t h
    cases h
  | cons a as ih =>
    intro t h
    rw [pathExists_cons] at h
    rw [removePath_cons]
    cases t with
    | mk l r f =>
      by_cases ha0 : a = 0
      · subst ha0
        rw [get_mk_zero] at h ⊢
        cases l with
        | none => rfl
        | some c =>
          show TrieNode.mk (some (removePath c as).1) r f = TrieNode.mk (some c) r f
          rw [ih c h]
      · rw [get_mk_pos l r f a ha0] at h ⊢
        cases r with
        | none => rfl
        | some c =>
          show (if a = 0 then _ else TrieNode.mk l (some (removePath c as).1) f) =
            TrieNode.mk l (some c) f
          rw [if_neg ha0, ih c h]

/-- Effect of `remove_cidr`'s walk on membership: exactly the removed path
loses its membership (when a child is missing nothing changes, and the
removed path was not a member anyway), every other path is untouched. -/
theorem removePath_mem (p : List Nat) : ∀ (t : TrieNode) (q : List Nat),
    (∀ x ∈ p, x < 2) → (∀ x ∈ q, x < 2) →
    trieMem (removePath t p).1 q = (trieMem t q && !(decide (q = p))) := by
  induction p with
  | nil =>
    intro t q _ _
    cases t with
    | mk l r f =>
      cases q with
      | nil => simp [removePath, trieMem, TrieNode.is_leaf, TrieNode.left, TrieNode.right]
      | cons b bs =>
        have hfst : (removePath (TrieNode.mk l r f) []).1 = TrieNode.mk l r false := rfl
        rw [hfst]
        by_cases hb : b = 0
        · subst hb
          rw [trieMem_mk_zero, trieMem_mk_zero]
          simp
        · rw [trieMem_mk_pos l r false b bs hb, trieMem_mk_pos l r f b bs hb]
          simp
  | cons a as ih =>
    intro t q hp hq
    have has : ∀ x ∈ as, x < 2 := fun x hx => hp x (List.mem_cons_of_mem a hx)
    have ha2 : a < 2 := hp a (List.mem_cons_self a as)
    cases t with
    | mk l r f =>
      rw [removePath_cons]
      by_cases ha0 : a = 0
      · subst ha0
        rw [get_mk_zero]
        cases l with
        | none =>
          show trieMem (TrieNode.mk none r f) q = _
          by_cases hq0 : q = 0 :: as
          · subst hq0
            rw [trieMem_mk_zero]
            show trieMem TrieNode.empty as = _
            rw [trieMem_empty]
            simp
          · simp [hq0]
        | some c =>
          show trieMem (TrieNode.mk (some (removePath c as).1) r f) q = _
          cases q with
          | nil => simp [trieMem, TrieNode.is_leaf]
          | cons b bs =>
            have hbs : ∀ x ∈ bs, x < 2 := fun x hx => hq x (List.mem_cons_of_mem b hx)
            by_cases hb0 : b = 0
            · subst hb0
              rw [trieMem_mk_zero, trieMem_mk_zero, Option.getD_some, Option.getD_some,
                ih c bs has hbs]
              simp
            · rw [trieMem_mk_pos _ _ _ b bs hb0, trieMem_mk_pos _ _ _ b bs hb0]
              simp [hb0]
      · rw [get_mk_pos l r f a ha0]
        cases r with
        | none =>
          show trieMem (TrieNode.mk l none f) q = _
          by_cases hqa : q = a :: as
          · subst hqa
            rw [trieMem_mk_pos _ _ _ a as ha0]
            show trieMem TrieNode.empty as = _
            rw [trieMem_empty]
            simp
          · simp [hqa]
        | some c =>
          show trieMem (if a = 0 then TrieNode.mk (some (removePath c as).1) (some c) f
            else TrieNode.mk l (some (removePath c as).1) f) q = _
          rw [if_neg ha0]
          cases q with
          | nil => simp [trieMem, TrieNode.is_leaf]
          | cons b bs =>
            have hbs : ∀ x ∈ bs, x < 2 := fun x hx => hq x (List.mem_cons_of_mem b hx)
            have hb2 : b < 2 := hq b (List.mem_cons_self b bs)
            by_cases hb0 : b = 0
            · subst hb0
              rw [trieMem_mk_zero, trieMem_mk_zero]
              simp [Ne.symm ha0]
            · have hab : a = 1 := by omega
              have hbb : b = 1 := by omega
              subst hab
              subst hbb
              rw [trieMem_mk_pos _ _ _ 1 bs hb0, trieMem_mk_pos _ _ _ 1 bs hb0,
                Option.getD_some, Option.getD_some, ih c bs has hbs]
              simp

/-- The deepest leaf depth reachable along the remaining bits, starting at
depth `d` (the auxiliary recursion used to reason about `trieWalk`). -/
def walkBest : TrieNode → List Nat → Nat → Option Nat
  | _, [], _ => none
  | t, b :: bs, d =>
    match t.get b with
    | none => none
    | some child =>
      match walkBest child bs (d + 1) with
      | some m => some m
      | none => if child.is_leaf then some d else none

/-- The lookup loop returns the deepest leaf depth along the path if there is
one, and otherwise its initial accumulator. -/
theorem trieWalk_eq_walkBest (bs : List Nat) :
    ∀ (t : TrieNode) (d : Nat) (best : Option Nat),
      trieWalk t bs d best =
        match walkBest t bs d with
        | some m => some m
        | none => best := by
  induction bs with
  | nil =>
    intro t d best
    rfl
  | cons b bs ih =>
    intro t d best
    show (match t.get b with
      | none => best
      | some child => trieWalk child bs (d + 1) (if child.is_leaf then some d else best)) = _
    cases hg : t.get b with
    | none => simp [walkBest, hg]
    | some child =>
      show trieWalk child bs (d + 1) (if child.is_leaf then some d else best) = _
      rw [ih child (d + 1) (if child.is_leaf then some d else best)]
      cases hw : walkBest child bs (d + 1) with
      | some m => simp [walkBest, hg, hw]
      | none =>
        by_cases hl : child.is_leaf = true <;> simp [walkBest, hg, hw, hl]

theorem walkBest_none_iff (bs : List Nat) : ∀ (t : TrieNode) (d : Nat),
    walkBest t bs d = none ↔
      ∀ j, 1 ≤ j → j ≤ bs.length → trieMem t (bs.take j) = false := by
  induction bs with
  | nil =>
    intro t d
    simp [walkBest]
    omega
  | cons b bs ih =>
    intro t d
    cases hg : t.get b with
    | none =>
      simp only [walkBest, hg]
      constructor
      · intro _ j hj1 hjlen
        obtain ⟨j', rfl⟩ : ∃ j', j = j' + 1 := ⟨j - 1, by omega⟩
        rw [List.take_succ_cons]
        show (match t.get b with
          | none => false
          | some child => trieMem child (bs.take j')) = false
        rw [hg]
      · intro _
        trivial
    | some child =>
      simp only [walkBest, hg]
      have hmem : ∀ j', trieMem t ((b :: bs).take (j' + 1)) = trieMem child (bs.take j') := by
        intro j'
        rw [List.take_succ_cons]
        show (match t.get b with
          | none => false
          | some c => trieMem c (bs.take j')) = _
        rw [hg]
      constructor
      · intro h j hj1 hjlen
        obtain ⟨j', rfl⟩ : ∃ j', j = j' + 1 := ⟨j - 1, by omega⟩
        rw [hmem]
        cases hw : walkBest child bs (d + 1) with
        | some m => rw [hw] at h; cases h
        | none =>
          rw [hw] at h
          by_cases hl : child.is_leaf = true
          · rw [if_pos hl] at h; cases h
          · rcases Nat.eq_zero_or_pos j' with hj0 | hjpos
            · subst hj0
              rw [List.take_zero]
              show child.is_leaf = false
              exact Bool.not_eq_true _ |>.mp hl
            · exact (ih child (d + 1)).mp hw j' (by omega) (by simpa using hjlen)
      · intro h
        have hleaf : child.is_leaf = false := by
          have := h 1 (by omega) (by simp)
          rw [hmem 0, List.take_zero] at this
          exact this
        have hnone : walkBest child bs (d + 1) = none := by
          rw [ih child (d + 1)]
          intro j' hj1 hjlen
          have := h (j' + 1) (by omega) (by simpa using Nat.succ_le_succ hjlen)
          rw [hmem j'] at this
          exact this
        rw [hnone, hleaf]
        simp

/-- Characterizing property of a returned depth `m`: it comes from the
greatest step count `k` whose path-so-far ends at a leaf. -/
def WalkChar (t : TrieNode) (bs : List Nat) (d m : Nat) : Prop :=
  ∃ k, 1 ≤ k ∧ k ≤ bs.length ∧ m = d + k - 1 ∧
    trieMem t (bs.take k) = true ∧
    ∀ j, k < j → j ≤ bs.length → trieMem t (bs.take j) = false

theorem walkChar_unique (t : TrieNode) (bs : List Nat) (d m₁ m₂ : Nat)
    (h1 : WalkChar t bs d m₁) (h2 : WalkChar t bs d m₂) : m₁ = m₂ := by
  obtain ⟨k₁, hk₁a, hk₁b, hm₁, hmem₁, hmax₁⟩ := h1
  obtain ⟨k₂, hk₂a, hk₂b, hm₂, hmem₂, hmax₂⟩ := h2
  rcases Nat.lt_trichotomy k₁ k₂ with h | h | h
  · rw [hmax₁ k₂ h hk₂b] at hmem₂
    cases hmem₂
  · omega
  · rw [hmax₂ k₁ h hk₁b] at hmem₁
    cases hmem₁

theorem walkBest_some_char (bs : List Nat) : ∀ (t : TrieNode) (d m : Nat),
    walkBest t bs d = some m → WalkChar t bs d m := by
  induction bs with
  | nil =>
    intro t d m h
    cases h
  | cons b bs ih =>
    intro t d m h
    cases hg : t.get b with
    | none =>
      rw [show walkBest t (b :: bs) d =
        (match t.get b with
          | none => none
          | some child =>
            match walkBest child bs (d + 1) with
            | some m => some m
            | none => if child.is_leaf then some d else none) from rfl, hg] at h
      exact Option.noConfusion h
    | some child =>
      have hmem : ∀ j', trieMem t ((b :: bs).take (j' + 1)) = trieMem child (bs.take j') := by
        intro j'
        rw [List.take_succ_cons]
        show (match t.get b with
          | none => false
          | some c => trieMem c (bs.take j')) = _
        rw [hg]
      rw [show walkBest t (b :: bs) d =
        (match t.get b with
          | none => none
          | some child =>
            match walkBest child bs (d + 1) with
            | some m => some m
            | none => if child.is_leaf then some d else none) from rfl, hg] at h
      have h' : (match walkBest child bs (d + 1) with
        | some x => some x
        | none => if child.is_leaf then some d else none) = some m := h
      clear h
      cases hw : walkBest child bs (d + 1) with
      | some m' =>
        rw [hw] at h'
        have hmm : m = m' := by
          have hmm' : some m' = some m := h'
          exact (Option.some_inj.mp hmm').symm
        subst hmm
        obtain ⟨k', hk'a, hk'b, hm', hmem', hmax'⟩ := ih child (d + 1) m hw
        refine ⟨k' + 1, by omega, by simpa using Nat.succ_le_succ hk'b, by omega, ?_, ?_⟩
        · rw [hmem k']
          exact hmem'
        · intro j hj hjlen
          obtain ⟨j', rfl⟩ : ∃ j', j = j' + 1 := ⟨j - 1, by omega⟩
          rw [hmem j']
          exact hmax' j' (by omega) (by simpa using hjlen)
      | none =>
        rw [hw] at h'
        by_cases hl : child.is_leaf = true
        · rw [if_pos hl] at h'
          have hmd : m = d := by
            have hmd' : some d = some m := h'
            exact (Option.some_inj.mp hmd').symm
          refine ⟨1, le_refl 1, by simp, by omega, ?_, ?_⟩
          · rw [hmem 0, List.take_zero]
            exact hl
          · intro j hj hjlen
            obtain ⟨j', rfl⟩ : ∃ j', j = j' + 1 := ⟨j - 1, by omega⟩
            rw [hmem j']
            exact (walkBest_none_iff bs child (d + 1)).mp hw j' (by omega) (by simpa using hjlen)
        · rw [if_neg hl] at h'
          cases h'

theorem walkBest_some_iff (bs : List Nat) (t : TrieNode) (d m : Nat) :
    walkBest t bs d = some m ↔ WalkChar t bs d m := by
  constructor
  · exact walkBest_some_char bs t d m
  · intro hchar
    cases hw : walkBest t bs d with
    | none =>
      obtain ⟨k, hka, hkb, _, hmem, _⟩ := hchar
      rw [(walkBest_none_iff bs t d).mp hw k hka hkb] at hmem
      cases hmem
    | some m' =>
      have := walkBest_some_char bs t d m' hw
      rw [walkChar_unique t bs d m m' hchar this]

theorem xor_lowmask (r : Nat) (hr : r ≤ 32) :
    (2 ^ 32 - 1) ^^^ (2 ^ r - 1) = 2 ^ 32 - 2 ^ r := by
  have h := xor_himask r hr
  calc (2 ^ 32 - 1) ^^^ (2 ^ r - 1)
      = (2 ^ 32 - 1) ^^^ ((2 ^ 32 - 1) ^^^ (2 ^ 32 - 2 ^ r)) := by rw [h]
    _ = ((2 ^ 32 - 1) ^^^ (2 ^ 32 - 1)) ^^^ (2 ^ 32 - 2 ^ r) := by rw [Nat.xor_assoc]
    _ = 2 ^ 32 - 2 ^ r := by rw [Nat.xor_self, Nat.zero_xor]

/-- The lookup loop of the trie backend, started the way `find_exact_cidr`
starts it, computes the greatest depth `d ≤ 32` whose visited node on the
path of `a` has the leaf flag set (depth 0 being the root itself). -/
theorem trieWalk_spec (t : TrieNode) (a : Nat) :
    trieWalk t (pathBits a 32) 1 (if t.is_leaf then some 0 else none) =
      greatestHit (fun d => trieMem t (pathBits a d)) 32 := by
  rw [trieWalk_eq_walkBest]
  cases hw : walkBest t (pathBits a 32) 1 with
  | some m =>
    obtain ⟨k, hka, hkb, hm, hmem, hmax⟩ := walkBest_some_char _ t 1 m hw
    rw [pathBits_length] at hkb
    rw [pathBits_take a 32 k hkb] at hmem
    have hmk : m = k := by omega
    subst hmk
    symm
    rw [greatestHit_some_iff]
    refine ⟨hkb, hmem, ?_⟩
    intro j hj hlt
    have := hmax j hlt (by rw [pathBits_length]; exact hj)
    rw [pathBits_take a 32 j hj] at this
    exact this
  | none =>
    have hall := (walkBest_none_iff _ t 1).mp hw
    by_cases hl : t.is_leaf = true
    · rw [if_pos hl]
      symm
      rw [greatestHit_some_iff]
      refine ⟨by omega, ?_, ?_⟩
      · show trieMem t (pathBits a 0) = true
        exact hl
      · intro j hj hlt
        have := hall j (by omega) (by rw [pathBits_length]; exact hj)
        rw [pathBits_take a 32 j hj] at this
        exact this
    · rw [if_neg hl]
      symm
      rw [greatestHit_none_iff]
      intro j hj
      rcases Nat.eq_zero_or_pos j with hj0 | hjpos
      · subst hj0
        show trieMem t (pathBits a 0) = false
        exact Bool.not_eq_true _ |>.mp hl
      · have := hall j (by omega) (by rw [pathBits_length]; exact hj)
        rw [pathBits_take a 32 j hj] at this
        exact this

/-- Definition following the words of the spec for the trie lookup: among
the depths `0..32` whose visited node on the address's path has the leaf
flag set (depth `d` is visited with its leaf flag set exactly when
`trieMem t (pathBits a d)`), take the greatest; if there is none return
`none`, otherwise pair the address truncated to that depth with the depth as
the prefix length. -/
def trieFindSpec (t : TrieNode) (a : Nat) : Option Ipv4Cidr :=
  match greatestHit (fun d => trieMem t (pathBits a d)) 32 with
  | none => none
  | some d => some ⟨truncA a d, d⟩

/-- The `unwrap` on `Ipv4Cidr::new` in the hit branch of the trie lookup can
never fire: the truncated address is canonical for the tracked depth. -/
theorem trie_find_new_ok (a d : Nat) (ha : a < 2 ^ 32) (hd : d ≤ 32) :
    Ipv4Cidr.new (truncA a d) d = Except.ok ⟨truncA a d, d⟩ :=
  (valid_trunc a d ha hd).2

/--
Claim C2: for the trie backend, on every trie state and every 32-bit
address, `find_exact_cidr` walks at most 32 levels along the address's bits
most significant first, stopping early when a required child is missing; if
no visited node on that path (the root counting as depth 0) has its leaf
flag set it returns `none`, and otherwise it returns the CIDR whose length
is the greatest depth at which a visited node's leaf flag is set and whose
address is the queried address truncated to that many bits.
-/
theorem c2_trie_find_correct (t : TrieRoutingTable) (a : Nat) (ha : a < 2 ^ 32) :
    t.find_exact_cidr a = trieFindSpec t.root a := by
  rw [TrieRoutingTable.find_exact_cidr, MAX_LENGTH, trieWalk_spec, trieFindSpec]
  cases hg : greatestHit (fun d => trieMem t.root (pathBits a d)) 32 with
  | none => rfl
  | some d =>
    have hd32 : d ≤ 32 := ((greatestHit_some_iff _ _ _).mp hg).1
    show some (⟨if d = 0 then 0
      else a &&& ((2 ^ 32 - 1) ^^^ ((1 <<< (MAX_LENGTH - d)) - 1)), d⟩ : Ipv4Cidr) =
      some (⟨truncA a d, d⟩ : Ipv4Cidr)
    congr 1
    by_cases hd0 : d = 0
    · subst hd0
      rw [if_pos rfl, truncA_zero a ha]
    · rw [if_neg hd0, MAX_LENGTH, Nat.shiftLeft_eq, one_mul,
        xor_lowmask (32 - d) (by omega), and_himask a (32 - d) ha (by omega)]
      rfl

/-- Witness for C2: lookup of address 5 on the empty trie. -/
theorem c2_trie_find_correct_witness :
    (5 : Nat) < 2 ^ 32 ∧
      TrieRoutingTable.new.find_exact_cidr 5 = trieFindSpec TrieRoutingTable.new.root 5 :=
  ⟨by norm_num, c2_trie_find_correct TrieRoutingTable.new 5 (by norm_num)⟩

/--
Claim C3: for the trie backend, on every state and every valid CIDR,
`remove_cidr` leaves the trie and the size counter entirely unchanged when
some child along the first `length` bits of the address is missing;
otherwise it clears the leaf flag of the final node on that path (leaving
every other path's membership untouched) and executes the decrement of the
size counter — whenever the full path exists, even if the final node's leaf
flag was not set (no conjunct below assumes the flag was set); the decrement
is the source's `self.size -= 1`, i.e. an actual decrement whenever the
counter is positive.
-/
theorem c3_trie_remove (t : TrieRoutingTable) (c : Ipv4Cidr) (hc : Ipv4Cidr.Valid c) :
    (pathExists t.root (pathBits c.min c.prefix_len) = false → t.remove_cidr c = t) ∧
    (pathExists t.root (pathBits c.min c.prefix_len) = true →
      trieMem (t.remove_cidr c).root (pathBits c.min c.prefix_len) = false ∧
      (∀ q : List Nat, (∀ x ∈ q, x < 2) → q ≠ pathBits c.min c.prefix_len →
        trieMem (t.remove_cidr c).root q = trieMem t.root q) ∧
      (t.remove_cidr c).size = (t.size + (2 ^ 64 - 1)) % 2 ^ 64 ∧
      (0 < t.size → t.size < 2 ^ 64 → (t.remove_cidr c).size = t.size - 1)) := by
  have hfound := removePath_found (pathBits c.min c.prefix_len) t.root
  have hbits := pathBits_bits_lt c.min c.prefix_len
  constructor
  · intro h
    have h1 : (removePath t.root (pathBits c.min c.prefix_len)).1 = t.root :=
      removePath_not_found _ _ h
    have h2 : (removePath t.root (pathBits c.min c.prefix_len)).2 = false := by
      rw [hfound, h]
    show (⟨(removePath t.root (pathBits c.min c.prefix_len)).1,
      if (removePath t.root (pathBits c.min c.prefix_len)).2 then
        (t.size + (2 ^ 64 - 1)) % 2 ^ 64
      else t.size⟩ : TrieRoutingTable) = t
    rw [h1, h2, if_neg Bool.false_ne_true]
  · intro h
    have h2 : (removePath t.root (pathBits c.min c.prefix_len)).2 = true := by
      rw [hfound, h]
    have hroot : (t.remove_cidr c).root = (removePath t.root (pathBits c.min c.prefix_len)).1 :=
      rfl
    have hsize : (t.remove_cidr c).size = (t.size + (2 ^ 64 - 1)) % 2 ^ 64 := by
      show (if (removePath t.root (pathBits c.min c.prefix_len)).2 then
        (t.size + (2 ^ 64 - 1)) % 2 ^ 64 else t.size) = _
      rw [h2, if_pos rfl]
    refine ⟨?_, ?_, hsize, ?_⟩
    · rw [hroot, removePath_mem _ t.root _ hbits hbits]
      simp
    · intro q hq hne
      rw [hroot, removePath_mem _ t.root _ hbits hq]
      simp [hne]
    · intro hpos hlt
      rw [hsize]
      have : (2 : Nat) ^ 64 = 18446744073709551616 := by norm_num
      omega

/-- Witness for C3: removing `0.0.0.0/32` from the empty trie (its path is
missing, so nothing changes). -/
theorem c3_trie_remove_witness :
    Ipv4Cidr.Valid ⟨0, 32⟩ ∧
      pathExists TrieRoutingTable.new.root
        (pathBits (Ipv4Cidr.min ⟨0, 32⟩) (Ipv4Cidr.prefix_len ⟨0, 32⟩)) = false ∧
      TrieRoutingTable.new.remove_cidr ⟨0, 32⟩ = TrieRoutingTable.new :=
  ⟨by decide, by decide,
    (c3_trie_remove TrieRoutingTable.new ⟨0, 32⟩ (by decide)).1 (by decide)⟩

/--
Claim C4 names the safety contract that no operation of any backend
underflows; the trie backend violates it: on the fresh (empty) trie, whose
size counter is 0, `remove_cidr(0.0.0.0/0)` walks the empty path (which
trivially exists) and executes `self.size -= 1` on a `usize` holding 0 — an
arithmetic underflow (a panic in debug builds; the release build wraps to
`2^64 - 1`, as computed below).
-/
theorem c4_trie_remove_underflow :
    Ipv4Cidr.Valid ⟨0, 0⟩ ∧
      TrieRoutingTable.new.size = 0 ∧
      pathExists TrieRoutingTable.new.root
        (pathBits (Ipv4Cidr.min ⟨0, 0⟩) (Ipv4Cidr.prefix_len ⟨0, 0⟩)) = true ∧
      (TrieRoutingTable.new.remove_cidr ⟨0, 0⟩).size = 2 ^ 64 - 1 := by
  refine ⟨by decide, rfl, rfl, ?_⟩
  show (if (removePath TrieRoutingTable.new.root
      (pathBits (Ipv4Cidr.min ⟨0, 0⟩) (Ipv4Cidr.prefix_len ⟨0, 0⟩))).2 then
    (TrieRoutingTable.new.size + (2 ^ 64 - 1)) % 2 ^ 64
  else TrieRoutingTable.new.size) = 2 ^ 64 - 1
  rw [show (removePath TrieRoutingTable.new.root
    (pathBits (Ipv4Cidr.min ⟨0, 0⟩) (Ipv4Cidr.prefix_len ⟨0, 0⟩))).2 = true from rfl,
    if_pos rfl]
  show (0 + (2 ^ 64 - 1)) % 2 ^ 64 = 2 ^ 64 - 1
  norm_num

/-! ### Parsing (`impl FromStr for Ipv4Cidr` in `src/cidr.rs`) -/

/-- Splitting a character list at every occurrence of a separator, the way
Rust's `str::split` does (splitting the empty string yields one empty
part). -/
def splitChar (sep : Char) : List Char → List (List Char)
  | [] => [[]]
  | c :: cs =>
    match splitChar sep cs with
    | [] => [[]]
    | p :: ps => if c = sep then [] :: p :: ps else (c :: p) :: ps

/-- Decimal value of a digit string. -/
def digitsVal (cs : List Char) : Nat :=
  cs.foldl (fun acc c => acc * 10 + (c.toNat - 48)) 0

/-- One octet accepted by Rust's `Ipv4Addr::from_str`: one to three decimal
digits, no zero prefix, value at most 255. -/
def octetOk (cs : List Char) : Bool :=
  decide (cs ≠ []) && cs.all Char.isDigit && decide (cs.length ≤ 3) &&
    (decide (cs.length = 1) || decide (cs.headD 'x' ≠ '0')) && decide (digitsVal cs ≤ 255)

/-- Embedding of Rust's `Ipv4Addr::from_str` on the numeric value: four
dot-separated octets consuming the whole string. -/
def parseIpv4 (cs : List Char) : Option Nat :=
  match splitChar '.' cs with
  | [a, b, c, d] =>
    if octetOk a && octetOk b && octetOk c && octetOk d then
      some (digitsVal a * 2 ^ 24 + digitsVal b * 2 ^ 16 + digitsVal c * 2 ^ 8 + digitsVal d)
    else none
  | _ => none

/-- Embedding of Rust's `str::parse::<u8>`: an optional leading `+`, then at
least one decimal digit, with the value fitting in eight bits. -/
def parseU8 (cs : List Char) : Option Nat :=
  let ds := match cs with
    | '+' :: rest => rest
    | _ => cs
  if decide (ds ≠ []) && ds.all Char.isDigit && decide (digitsVal ds ≤ 255) then
    some (digitsVal ds)
  else none

/-- Embedding of `FromStr for Ipv4Cidr` (`from_str` in `src/cidr.rs`): split
on `/`, require exactly two parts, parse the address, parse the length,
then delegate to the validating constructor. -/
def Ipv4Cidr.from_str (cs : List Char) : Except NetworkParseError Ipv4Cidr :=
  match splitChar '/' cs with
  | [l, r] =>
    match parseIpv4 l with
    | none => Except.error NetworkParseError.AddrParseError
    | some a =>
      match parseU8 r with
      | none => Except.error NetworkParseError.ParseIntError
      | some len => Ipv4Cidr.new a len
  | _ => Except.error NetworkParseError.CidrParseError

/-- The claim's notion of "a valid non-negative integer": a non-empty string
of decimal digits. -/
def isNonNegIntStr (cs : List Char) : Bool :=
  decide (cs ≠ []) && cs.all Char.isDigit

theorem get_cidr_mask_error (len : Nat) (e : NetworkParseError)
    (h : get_cidr_mask len = Except.error e) : e = NetworkParseError.NetworkLengthError := by
  rw [get_cidr_mask] at h
  by_cases hlen : len > MAX_LENGTH
  · rw [if_pos hlen] at h
    exact (Except.error.inj h).symm
  · rw [if_neg hlen] at h
    cases h

/-- The validating constructor only ever fails with the network-length
error. -/
theorem new_error_kind (a len : Nat) (e : NetworkParseError)
    (h : Ipv4Cidr.new a len = Except.error e) : e = NetworkParseError.NetworkLengthError := by
  rw [Ipv4Cidr.new] at h
  cases hm : get_cidr_mask len with
  | error e' =>
    rw [hm] at h
    have he : e = e' := (Except.error.inj h).symm
    rw [he]
    exact get_cidr_mask_error len e' hm
  | ok mask =>
    rw [hm] at h
    have h' : (if a &&& mask ≠ a then Except.error NetworkParseError.NetworkLengthError
      else Except.ok (⟨a, len⟩ : Ipv4Cidr)) = Except.error e := h
    by_cases hand : a &&& mask ≠ a
    · rw [if_pos hand] at h'
      exact (Except.error.inj h').symm
    · rw [if_neg hand] at h'
      cases h'

/--
Claim C9 (amended): the parser returns exactly one of four distinguishable
error kinds or succeeds, by the if/otherwise chain of the source — a
malformed-shape error exactly when splitting on `/` does not yield two
parts; the address-parse error exactly when the shape is fine but the left
part is not a valid dotted quad; the integer-parse error exactly when,
additionally, the right part does not parse as an 8-bit unsigned integer
(this includes numerically valid non-negative integers above 255, such as
`999` — the amendment forced by `c9_overflow_counterexample`); and the
network-length error of the validating constructor exactly when both parts
parse but the pair is invalid.  In particular `192.168.0.0/33` fails with
the network-length error, `bad/12` with the address-parse error,
`192.168.0.0/notanumber` with the integer-parse error and `nodash` with the
malformed-shape error.
-/
theorem c9_parse_error_kinds :
    (∀ cs : List Char,
      (Ipv4Cidr.from_str cs = Except.error NetworkParseError.CidrParseError ↔
        (splitChar '/' cs).length ≠ 2) ∧
      (Ipv4Cidr.from_str cs = Except.error NetworkParseError.AddrParseError ↔
        ∃ l r, splitChar '/' cs = [l, r] ∧ parseIpv4 l = none) ∧
      (Ipv4Cidr.from_str cs = Except.error NetworkParseError.ParseIntError ↔
        ∃ l r a, splitChar '/' cs = [l, r] ∧ parseIpv4 l = some a ∧ parseU8 r = none) ∧
      (Ipv4Cidr.from_str cs = Except.error NetworkParseError.NetworkLengthError ↔
        ∃ l r a len, splitChar '/' cs = [l, r] ∧ parseIpv4 l = some a ∧
          parseU8 r = some len ∧
          Ipv4Cidr.new a len = Except.error NetworkParseError.NetworkLengthError)) ∧
    Ipv4Cidr.from_str
        ['1', '9', '2', '.', '1', '6', '8', '.', '0', '.', '0', '/', '3', '3'] =
      Except.error NetworkParseError.NetworkLengthError ∧
    Ipv4Cidr.from_str ['b', 'a', 'd', '/', '1', '2'] =
      Except.error NetworkParseError.AddrParseError ∧
    Ipv4Cidr.from_str
        ['1', '9', '2', '.', '1', '6', '8', '.', '0', '.', '0', '/',
          'n', 'o', 't', 'a', 'n', 'u', 'm', 'b', 'e', 'r'] =
      Except.error NetworkParseError.ParseIntError ∧
    Ipv4Cidr.from_str ['n', 'o', 'd', 'a', 's', 'h'] =
      Except.error NetworkParseError.CidrParseError := by
  refine ⟨?_, by decide, by decide, by decide, by decide⟩
  intro cs
  cases hsplit : splitChar '/' cs with
  | nil =>
    have hfs : Ipv4Cidr.from_str cs = Except.error NetworkParseError.CidrParseError := by
      rw [Ipv4Cidr.from_str, hsplit]
    refine ⟨?_, ?_, ?_, ?_⟩ <;> simp [hfs, hsplit]
  | cons l tail =>
    cases tail with
    | nil =>
      have hfs : Ipv4Cidr.from_str cs = Except.error NetworkParseError.CidrParseError := by
        rw [Ipv4Cidr.from_str, hsplit]
      refine ⟨?_, ?_, ?_, ?_⟩ <;> simp [hfs, hsplit]
    | cons r tail2 =>
      cases tail2 with
      | cons x rest =>
        have hfs : Ipv4Cidr.from_str cs = Except.error NetworkParseError.CidrParseError := by
          rw [Ipv4Cidr.from_str, hsplit]
        refine ⟨?_, ?_, ?_, ?_⟩ <;> simp [hfs, hsplit]
      | nil =>
        cases hp : parseIpv4 l with
        | none =>
          have hfs : Ipv4Cidr.from_str cs = Except.error NetworkParseError.AddrParseError := by
            rw [Ipv4Cidr.from_str, hsplit]
            show (match parseIpv4 l with
              | none => Except.error NetworkParseError.AddrParseError
              | some a =>
                match parseU8 r with
                | none => Except.error NetworkParseError.ParseIntError
                | some len => Ipv4Cidr.new a len) = _
            rw [hp]
          refine ⟨?_, ?_, ?_, ?_⟩
          · simp [hfs]
          · simp [hfs]
            exact hp
          · simp [hfs]
            intro a' ha'
            rw [hp] at ha'
            cases ha'
          · simp [hfs]
            intro a' ha'
            rw [hp] at ha'
            cases ha'
        | some a =>
          cases hq : parseU8 r with
          | none =>
            have hfs : Ipv4Cidr.from_str cs =
                Except.error NetworkParseError.ParseIntError := by
              rw [Ipv4Cidr.from_str, hsplit]
              show (match parseIpv4 l with
                | none => Except.error NetworkParseError.AddrParseError
                | some a =>
                  match parseU8 r with
                  | none => Except.error NetworkParseError.ParseIntError
                  | some len => Ipv4Cidr.new a len) = _
              rw [hp]
              show (match parseU8 r with
                | none => Except.error NetworkParseError.ParseIntError
                | some len => Ipv4Cidr.new a len) = _
              rw [hq]
            refine ⟨?_, ?_, ?_, ?_⟩
            · simp [hfs]
            · simp [hfs, hp]
            · simp [hfs]
              exact ⟨l, r, ⟨rfl, rfl⟩, ⟨a, hp⟩, hq⟩
            · simp [hfs, hp]
              intro len' hlen'
              rw [hq] at hlen'
              cases hlen'
          | some len =>
            have hfs : Ipv4Cidr.from_str cs = Ipv4Cidr.new a len := by
              rw [Ipv4Cidr.from_str, hsplit]
              show (match parseIpv4 l with
                | none => Except.error NetworkParseError.AddrParseError
                | some a =>
                  match parseU8 r with
                  | none => Except.error NetworkParseError.ParseIntError
                  | some len => Ipv4Cidr.new a len) = _
              rw [hp]
              show (match parseU8 r with
                | none => Except.error NetworkParseError.ParseIntError
                | some len => Ipv4Cidr.new a len) = _
              rw [hq]
            cases hn : Ipv4Cidr.new a len with
            | error e =>
              have he := new_error_kind a len e hn
              subst he
              rw [hn] at hfs
              refine ⟨?_, ?_, ?_, ?_⟩
              · simp [hfs]
              · simp [hfs, hp]
              · simp [hfs, hp, hq]
              · simp [hfs, hp, hq]
                exact ⟨l, r, ⟨rfl, rfl⟩, a, hp, len, hq, hn⟩
            | ok cval =>
              rw [hn] at hfs
              refine ⟨?_, ?_, ?_, ?_⟩
              · simp [hfs]
              · simp [hfs, hp]
              · simp [hfs, hp, hq]
              · simp [hfs, hp, hq]
                intro hnew
                rw [hn] at hnew
                cases hnew

/--
Counterexample to claim C9 as stated: in `"192.168.0.0/999"` the shape is
well formed, the left part is a valid dotted quad, and the right part `999`
is a valid non-negative integer, so by the claim's if/otherwise chain the
parser should reach the validating constructor and fail with the
network-length error (the pair `(192.168.0.0, 999)` being invalid); the
code's `parse::<u8>()` overflows on 999 instead and the parser returns the
integer-parse error.
-/
theorem c9_overflow_counterexample :
    isNonNegIntStr ['9', '9', '9'] = true ∧
      (∃ a, parseIpv4 ['1', '9', '2', '.', '1', '6', '8', '.', '0', '.', '0'] = some a) ∧
      splitChar '/'
          ['1', '9', '2', '.', '1', '6', '8', '.', '0', '.', '0', '/', '9', '9', '9'] =
        [['1', '9', '2', '.', '1', '6', '8', '.', '0', '.', '0'], ['9', '9', '9']] ∧
      Ipv4Cidr.from_str
          ['1', '9', '2', '.', '1', '6', '8', '.', '0', '.', '0', '/', '9', '9', '9'] =
        Except.error NetworkParseError.ParseIntError ∧
      Ipv4Cidr.from_str
          ['1', '9', '2', '.', '1', '6', '8', '.', '0', '.', '0', '/', '9', '9', '9'] ≠
        Except.error NetworkParseError.NetworkLengthError := by
  refine ⟨by decide, ⟨3232235520, by decide⟩, by decide, by decide, by decide⟩

/-! ### Cross-backend equivalence (claim C1) -/

theorem take_bit_eq_testBit (a i : Nat) :
    take_bit a i = if a.testBit (32 - i) then 1 else 0 := by
  rw [take_bit, MAX_LENGTH, Nat.and_one_is_mod, Nat.shiftRight_eq_div_pow,
    Nat.testBit_to_div_mod]
  rcases Nat.mod_two_eq_zero_or_one (a / 2 ^ (32 - i)) with h | h <;> simp [h]

theorem pathBits_eq_iff (a b n : Nat) :
    pathBits a n = pathBits b n ↔ ∀ i, i < n → take_bit a (i + 1) = take_bit b (i + 1) := by
  constructor
  · intro h i hi
    have h1 := congrArg (fun l => l.getD i 0) h
    simp only [pathBits, List.getD, List.get?_eq_getElem?, List.getElem?_map,
      List.getElem?_range, hi, if_pos, Option.map_some, Option.getD_some] at h1
    exact h1
  · intro h
    apply List.ext_getElem (by simp [pathBits_length])
    intro i h1 h2
    rw [pathBits_length] at h1
    simp only [pathBits, List.getElem_map, List.getElem_range]
    exact h i h1

theorem testBit_canonical_low (a len j : Nat) (hmod : a % 2 ^ (32 - len) = 0)
    (hj : j < 32 - len) : a.testBit j = false := by
  obtain ⟨q, hq⟩ := Nat.dvd_of_mod_eq_zero hmod
  subst hq
  rw [Nat.testBit_to_div_mod]
  have hsplit : (2 : Nat) ^ (32 - len) = 2 ^ j * 2 ^ (32 - len - j) := by
    rw [← pow_add]
    congr 1
    omega
  rw [hsplit, Nat.mul_assoc, Nat.mul_div_cancel_left _ (Nat.pos_pow_of_pos j (by norm_num))]
  have hev : (2 : Nat) ^ (32 - len - j) = 2 * 2 ^ (32 - len - j - 1) := by
    rw [← pow_succ']
    congr 1
    omega
  have : 2 ^ (32 - len - j) * q % 2 = 0 := by
    rw [hev, Nat.mul_assoc, Nat.mul_mod_right]
  simp [this]

/-- A canonical address is determined by its first `len` bits. -/
theorem canonical_addr_inj (a b len : Nat) (ha : a < 2 ^ 32) (hb : b < 2 ^ 32)
    (hlen : len ≤ 32) (hca : truncA a len = a) (hcb : truncA b len = b)
    (h : ∀ i, 1 ≤ i → i ≤ len → take_bit a i = take_bit b i) : a = b := by
  apply Nat.eq_of_testBit_eq
  intro j
  by_cases hj32 : j < 32
  · by_cases hjlen : 32 - len ≤ j
    · have hi := h (32 - j) (by omega) (by omega)
      rw [take_bit_eq_testBit, take_bit_eq_testBit] at hi
      have hjj : 32 - (32 - j) = j := by omega
      rw [hjj] at hi
      by_cases h1 : a.testBit j = true <;> by_cases h2 : b.testBit j = true <;> simp_all
    · rw [testBit_canonical_low a len j ((truncA_eq_iff_mod a len).mp hca) (by omega),
        testBit_canonical_low b len j ((truncA_eq_iff_mod b len).mp hcb) (by omega)]
  · rw [testBit_ge_32 a j ha (by omega), testBit_ge_32 b j hb (by omega)]

/-- Truncation does not change the first `d` bits of the path. -/
theorem pathBits_trunc (a d : Nat) (hd : d ≤ 32) :
    pathBits (truncA a d) d = pathBits a d := by
  rw [pathBits_eq_iff]
  intro i hi
  rw [take_bit, take_bit, MAX_LENGTH, Nat.shiftRight_eq_div_pow, Nat.shiftRight_eq_div_pow]
  have key : truncA a d / 2 ^ (32 - (i + 1)) = a / 2 ^ (32 - (i + 1)) := by
    rw [truncA]
    have hsplit : (2 : Nat) ^ (32 - (i + 1)) = 2 ^ (32 - d) * 2 ^ (d - (i + 1)) := by
      rw [← pow_add]
      congr 1
      omega
    rw [hsplit, ← Nat.div_div_eq_div_mul,
      Nat.mul_div_cancel _ (Nat.pos_pow_of_pos _ (by norm_num)),
      Nat.div_div_eq_div_mul, ← hsplit]
  rw [key]

/-- Two valid CIDR values with the same bit path are equal. -/
theorem valid_pathBits_inj (c₁ c₂ : Ipv4Cidr) (h1 : Ipv4Cidr.Valid c₁)
    (h2 : Ipv4Cidr.Valid c₂)
    (hp : pathBits c₁.addr c₁.len = pathBits c₂.addr c₂.len) : c₁ = c₂ := by
  have hlen : c₁.len = c₂.len := by
    have hl := congrArg List.length hp
    rw [pathBits_length, pathBits_length] at hl
    exact hl
  obtain ⟨ha1, hl1, hc1⟩ := (valid_iff _).mp h1
  obtain ⟨ha2, hl2, hc2⟩ := (valid_iff _).mp h2
  rw [hlen] at hp hc1
  have haddr : c₁.addr = c₂.addr := by
    apply canonical_addr_inj c₁.addr c₂.addr c₂.len ha1 ha2 hl2 hc1 hc2
    intro i hi1 hi2
    have := (pathBits_eq_iff c₁.addr c₂.addr c₂.len).mp hp (i - 1) (by omega)
    have hii : i - 1 + 1 = i := by omega
    rw [hii] at this
    exact this
  cases c₁
  cases c₂
  simp_all

/-- The longest-prefix-match lookup against an abstract set of CIDR entries:
the greatest prefix length whose truncation of the address is in the set. -/
def lpmSpec (S : Finset Ipv4Cidr) (a : Nat) : Option Ipv4Cidr :=
  (greatestHit (fun d => decide ((⟨truncA a d, d⟩ : Ipv4Cidr) ∈ S)) 32).map
    (fun d => (⟨truncA a d, d⟩ : Ipv4Cidr))

theorem greatestHit_congr (P Q : Nat → Bool) (n : Nat) (h : ∀ d, d ≤ n → P d = Q d) :
    greatestHit P n = greatestHit Q n := by
  induction n with
  | zero =>
    unfold greatestHit
    rw [h 0 (le_refl 0)]
  | succ n ih =>
    unfold greatestHit
    rw [h (n + 1) (le_refl _), ih (fun d hd => h d (by omega))]

theorem lpmSpec_congr (S T : Finset Ipv4Cidr) (a : Nat)
    (h : ∀ d, d ≤ 32 →
      ((⟨truncA a d, d⟩ : Ipv4Cidr) ∈ S ↔ (⟨truncA a d, d⟩ : Ipv4Cidr) ∈ T)) :
    lpmSpec S a = lpmSpec T a := by
  rw [lpmSpec, lpmSpec,
    greatestHit_congr _ _ 32 (fun d hd => decide_eq_decide.mpr (h d hd))]

/-- Abstraction relation for the hash backend: bucket `l` holds exactly the
addresses whose pairing with `l` is in the abstract set. -/
def HashAbs (t : HashRoutingTable) (S : Finset Ipv4Cidr) : Prop :=
  ∀ b l, b ∈ t.cidrs l ↔ (⟨b, l⟩ : Ipv4Cidr) ∈ S

/-- Abstraction relation for the list backend: same members. -/
def ListAbs (t : ListRoutingTable) (S : Finset Ipv4Cidr) : Prop :=
  ∀ c : Ipv4Cidr, c ∈ t.cidrs ↔ c ∈ S

/-- Abstraction relation for the trie backend: a valid CIDR's bit path is a
member exactly when the CIDR is in the abstract set. -/
def TrieAbs (t : TrieRoutingTable) (S : Finset Ipv4Cidr) : Prop :=
  ∀ c : Ipv4Cidr, Ipv4Cidr.Valid c →
    (trieMem t.root (pathBits c.addr c.len) = true ↔ c ∈ S)

theorem hash_find_abs (t : HashRoutingTable) (S : Finset Ipv4Cidr) (a : Nat)
    (hinv : HashAbs t S) (ha : a < 2 ^ 32) :
    t.find_exact_cidr a = lpmSpec S a := by
  rw [hash_find_eq t a ha, lpmSpec,
    greatestHit_congr _ _ 32 (fun d _ => decide_eq_decide.mpr (hinv (truncA a d) d))]

theorem trie_find_abs (t : TrieRoutingTable) (S : Finset Ipv4Cidr) (a : Nat)
    (hinv : TrieAbs t S) (ha : a < 2 ^ 32) :
    t.find_exact_cidr a = lpmSpec S a := by
  rw [c2_trie_find_correct t a ha, trieFindSpec, lpmSpec]
  have hpt : ∀ d, d ≤ 32 →
      trieMem t.root (pathBits a d) = decide ((⟨truncA a d, d⟩ : Ipv4Cidr) ∈ S) := by
    intro d hd
    have hv := valid_trunc a d ha hd
    have hiff := hinv ⟨truncA a d, d⟩ hv
    rw [show (⟨truncA a d, d⟩ : Ipv4Cidr).addr = truncA a d from rfl,
      show (⟨truncA a d, d⟩ : Ipv4Cidr).len = d from rfl, pathBits_trunc a d hd] at hiff
    by_cases hmem : (⟨truncA a d, d⟩ : Ipv4Cidr) ∈ S
    · rw [hiff.mpr hmem]
      simp [hmem]
    · cases htm : trieMem t.root (pathBits a d) with
      | true => exact absurd (hiff.mp htm) hmem
      | false => simp [hmem]
  rw [greatestHit_congr _ _ 32 hpt]
  cases greatestHit (fun d => decide ((⟨truncA a d, d⟩ : Ipv4Cidr) ∈ S)) 32 with
  | none => rfl
  | some d => rfl

/-- The fold body of `ListRoutingTable::find_exact_cidr`, as a named
function. -/
def findStep (addr : Nat) (acc : Option Ipv4Cidr) (cidr : Ipv4Cidr) : Option Ipv4Cidr :=
  if cidr.contains addr then
    match acc with
    | none => some cidr
    | some other => if other.prefix_len < cidr.prefix_len then some cidr else acc
  else acc

theorem list_find_eq_foldl (t : ListRoutingTable) (a : Nat) :
    t.find_exact_cidr a = t.cidrs.foldl (findStep a) none := rfl

/-- Containment by a valid CIDR is prefix match (boolean form of C10). -/
theorem valid_contains_iff (e : Ipv4Cidr) (a : Nat) (he : Ipv4Cidr.Valid e)
    (ha : a < 2 ^ 32) :
    e.contains a = true ↔ truncA a e.len = e.addr := by
  obtain ⟨he32, hel, _⟩ := (valid_iff e).mp he
  rw [c10_contains_iff_trunc e a he ha, cut_addr_eq a e.len ha hel]
  constructor
  · intro h
    exact Except.ok.inj h
  · intro h
    rw [Ipv4Cidr.min, h]

theorem greatestHit_or (P : Nat → Bool) (L n : Nat) (hL : L ≤ n) :
    greatestHit (fun d => decide (d = L) || P d) n =
      some (match greatestHit P n with
        | none => L
        | some m => max m L) := by
  cases hg : greatestHit P n with
  | none =>
    show greatestHit (fun d => decide (d = L) || P d) n = some L
    rw [greatestHit_some_iff]
    have hall := (greatestHit_none_iff P n).mp hg
    refine ⟨hL, by simp, ?_⟩
    intro d hd hlt
    rw [hall d hd]
    simp
    omega
  | some m =>
    show greatestHit (fun d => decide (d = L) || P d) n = some (max m L)
    rw [greatestHit_some_iff]
    obtain ⟨hm, hPm, hmax⟩ := (greatestHit_some_iff P n m).mp hg
    refine ⟨by omega, ?_, ?_⟩
    · rcases Nat.le_total L m with hLm | hmL
      · have hmx : max m L = m := by omega
        rw [hmx]
        simp [hPm]
      · have hmx : max m L = L := by omega
        rw [hmx]
        simp
    · intro d hd hlt
      have hmd : m < d := by omega
      have hLd : L < d := by omega
      rw [hmax d hd hmd]
      simp
      omega

theorem lpmSpec_empty (a : Nat) : lpmSpec (∅ : Finset Ipv4Cidr) a = none := by
  rw [lpmSpec, Option.map_eq_none', greatestHit_none_iff]
  intro d _
  simp

/-- One fold step of the list lookup against the abstract lookup: processing
one more (valid) entry moves the abstract set from `S` to `insert x S`. -/
theorem findStep_lpmSpec (S : Finset Ipv4Cidr) (a : Nat) (x : Ipv4Cidr)
    (hx : Ipv4Cidr.Valid x) (ha : a < 2 ^ 32) :
    findStep a (lpmSpec S a) x = lpmSpec (insert x S) a := by
  have hxlen : x.len ≤ 32 := ((valid_iff x).mp hx).2.1
  by_cases hcont : x.contains a = true
  · have hxt := (valid_contains_iff x a hx ha).mp hcont
    have hxeq : x = ⟨truncA a x.len, x.len⟩ := by
      cases x
      simp_all
    have hP : ∀ d, d ≤ 32 → decide ((⟨truncA a d, d⟩ : Ipv4Cidr) ∈ insert x S) =
        (decide (d = x.len) || decide ((⟨truncA a d, d⟩ : Ipv4Cidr) ∈ S)) := by
      intro d hd
      by_cases hdx : d = x.len
      · subst hdx
        rw [← hxeq]
        simp [Finset.mem_insert]
      · simp only [Finset.mem_insert]
        have hne : (⟨truncA a d, d⟩ : Ipv4Cidr) ≠ x := by
          intro heq
          exact hdx (congrArg Ipv4Cidr.len heq)
        simp [hne, hdx]
    rw [lpmSpec, lpmSpec, greatestHit_congr _ _ 32 hP, greatestHit_or _ x.len 32 hxlen]
    cases hg : greatestHit (fun d => decide ((⟨truncA a d, d⟩ : Ipv4Cidr) ∈ S)) 32 with
    | none =>
      show findStep a none x = some (⟨truncA a x.len, x.len⟩ : Ipv4Cidr)
      show (if x.contains a = true then some x else none) = _
      rw [if_pos hcont, ← hxeq]
    | some m =>
      show (if x.contains a = true then
          (if (⟨truncA a m, m⟩ : Ipv4Cidr).prefix_len < x.prefix_len then some x
           else some (⟨truncA a m, m⟩ : Ipv4Cidr))
        else some (⟨truncA a m, m⟩ : Ipv4Cidr)) =
        some (⟨truncA a (max m x.len), max m x.len⟩ : Ipv4Cidr)
      rw [if_pos hcont]
      rcases Nat.lt_or_ge m x.len with hlt | hge
      · rw [if_pos (by simpa [Ipv4Cidr.prefix_len] using hlt),
          show max m x.len = x.len from by omega, ← hxeq]
      · rw [if_neg (by simpa [Ipv4Cidr.prefix_len] using Nat.not_lt.mpr hge),
          show max m x.len = m from by omega]
  · have hstep : findStep a (lpmSpec S a) x = lpmSpec S a := by
      show (if x.contains a = true then
          (match lpmSpec S a with
            | none => some x
            | some other =>
              if other.prefix_len < x.prefix_len then some x else lpmSpec S a)
        else lpmSpec S a) = lpmSpec S a
      rw [if_neg hcont]
    rw [hstep]
    apply lpmSpec_congr
    intro d hd
    simp only [Finset.mem_insert]
    have hne : (⟨truncA a d, d⟩ : Ipv4Cidr) ≠ x := by
      intro heq
      apply hcont
      rw [valid_contains_iff x a hx ha, ← heq]
    simp [hne]

theorem foldl_findStep (l : List Ipv4Cidr) : ∀ S : Finset Ipv4Cidr, ∀ a : Nat,
    a < 2 ^ 32 → (∀ c ∈ l, Ipv4Cidr.Valid c) →
    l.foldl (findStep a) (lpmSpec S a) =
      lpmSpec (l.foldl (fun T c => insert c T) S) a := by
  induction l with
  | nil =>
    intro S a _ _
    rfl
  | cons x xs ih =>
    intro S a ha hl
    rw [List.foldl_cons, List.foldl_cons,
      findStep_lpmSpec S a x (hl x (List.mem_cons_self x xs)) ha]
    exact ih (insert x S) a ha (fun c hc => hl c (List.mem_cons_of_mem x hc))

theorem mem_foldl_insert (l : List Ipv4Cidr) : ∀ (T : Finset Ipv4Cidr) (c : Ipv4Cidr),
    c ∈ l.foldl (fun T x => insert x T) T ↔ c ∈ T ∨ c ∈ l := by
  induction l with
  | nil =>
    intro T c
    simp
  | cons x xs ih =>
    intro T c
    rw [List.foldl_cons, ih (insert x T) c]
    simp [Finset.mem_insert]
    tauto

theorem list_find_abs (t : ListRoutingTable) (S : Finset Ipv4Cidr) (a : Nat)
    (hinv : ListAbs t S) (hval : ∀ c ∈ S, Ipv4Cidr.Valid c) (ha : a < 2 ^ 32) :
    t.find_exact_cidr a = lpmSpec S a := by
  rw [list_find_eq_foldl,
    show (none : Option Ipv4Cidr) = lpmSpec (∅ : Finset Ipv4Cidr) a from
      (lpmSpec_empty a).symm,
    foldl_findStep t.cidrs ∅ a ha (fun c hc => hval c ((hinv c).mp hc))]
  apply lpmSpec_congr
  intro d hd
  rw [mem_foldl_insert]
  simp only [Finset.not_mem_empty, false_or]
  exact hinv _

/-- A call against the shared `RoutingTable` interface. -/
inductive Op where
  | add (c : Ipv4Cidr)
  | remove (c : Ipv4Cidr)

/-- The set-semantics discipline of the claim, checked against the abstract
set: every added CIDR is valid and not yet present, every removed CIDR is
currently present. -/
def okOps (S : Finset Ipv4Cidr) : List Op → Bool
  | [] => true
  | Op.add c :: ops => decide (Ipv4Cidr.Valid c) && decide (c ∉ S) && okOps (insert c S) ops
  | Op.remove c :: ops => decide (c ∈ S) && okOps (S.erase c) ops

def stepHash (t : HashRoutingTable) : Op → HashRoutingTable
  | Op.add c => t.add_cidr c
  | Op.remove c => t.remove_cidr c

def stepList (t : ListRoutingTable) : Op → ListRoutingTable
  | Op.add c => t.add_cidr c
  | Op.remove c => t.remove_cidr c

def stepTrie (t : TrieRoutingTable) : Op → TrieRoutingTable
  | Op.add c => t.add_cidr c
  | Op.remove c => t.remove_cidr c

/-- A hash backend fed a sequence of calls, starting empty. -/
def runHash (ops : List Op) : HashRoutingTable := ops.foldl stepHash HashRoutingTable.new

/-- A list backend fed a sequence of calls, starting empty. -/
def runList (ops : List Op) : ListRoutingTable := ops.foldl stepList ListRoutingTable.new

/-- A trie backend fed a sequence of calls, starting empty. -/
def runTrie (ops : List Op) : TrieRoutingTable := ops.foldl stepTrie TrieRoutingTable.new

theorem hashAbs_add (t : HashRoutingTable) (S : Finset Ipv4Cidr) (c : Ipv4Cidr)
    (hinv : HashAbs t S) : HashAbs (t.add_cidr c) (insert c S) := by
  intro b l
  have hb : (t.add_cidr c).cidrs l =
      Function.update t.cidrs c.prefix_len (insert c.min (t.cidrs c.prefix_len)) l := rfl
  rw [hb, Function.update_apply, Finset.mem_insert]
  by_cases hl : l = c.prefix_len
  · subst hl
    rw [if_pos rfl, Finset.mem_insert, hinv b _]
    constructor
    · intro h
      rcases h with h | h
      · left
        rw [h]
        rfl
      · right
        exact h
    · intro h
      rcases h with h | h
      · left
        exact congrArg Ipv4Cidr.addr h
      · right
        exact h
  · rw [if_neg hl, hinv b l]
    have hne : (⟨b, l⟩ : Ipv4Cidr) ≠ c := by
      intro h
      exact hl (congrArg Ipv4Cidr.len h)
    simp [hne]

theorem hashAbs_remove (t : HashRoutingTable) (S : Finset Ipv4Cidr) (c : Ipv4Cidr)
    (hinv : HashAbs t S) : HashAbs (t.remove_cidr c) (S.erase c) := by
  intro b l
  have hb : (t.remove_cidr c).cidrs l =
      Function.update t.cidrs c.prefix_len ((t.cidrs c.prefix_len).erase c.min) l := rfl
  rw [hb, Function.update_apply, Finset.mem_erase]
  by_cases hl : l = c.prefix_len
  · subst hl
    rw [if_pos rfl, Finset.mem_erase, hinv b _]
    constructor
    · intro ⟨h1, h2⟩
      refine ⟨?_, h2⟩
      intro h
      exact h1 (congrArg Ipv4Cidr.addr h)
    · intro ⟨h1, h2⟩
      refine ⟨?_, h2⟩
      intro h
      apply h1
      rw [h]
      rfl
  · rw [if_neg hl, hinv b l]
    have hne : (⟨b, l⟩ : Ipv4Cidr) ≠ c := by
      intro h
      exact hl (congrArg Ipv4Cidr.len h)
    simp [hne]

theorem listAbs_add (t : ListRoutingTable) (S : Finset Ipv4Cidr) (c : Ipv4Cidr)
    (hinv : ListAbs t S) : ListAbs (t.add_cidr c) (insert c S) := by
  intro e
  have hb : (t.add_cidr c).cidrs = t.cidrs ++ [c] := rfl
  rw [hb, List.mem_append, Finset.mem_insert, hinv e]
  simp
  tauto

theorem listAbs_remove (t : ListRoutingTable) (S : Finset Ipv4Cidr) (c : Ipv4Cidr)
    (hinv : ListAbs t S) : ListAbs (t.remove_cidr c) (S.erase c) := by
  intro e
  have hb : (t.remove_cidr c).cidrs = t.cidrs.filter (fun cur => cur != c) := rfl
  rw [hb, List.mem_filter, Finset.mem_erase, hinv e]
  simp
  tauto

theorem trieAbs_add (t : TrieRoutingTable) (S : Finset Ipv4Cidr) (c₀ : Ipv4Cidr)
    (h₀ : Ipv4Cidr.Valid c₀) (hinv : TrieAbs t S) :
    TrieAbs (t.add_cidr c₀) (insert c₀ S) := by
  intro c hc
  have hroot : (t.add_cidr c₀).root = addPath t.root (pathBits c₀.addr c₀.len) := rfl
  rw [hroot, addPath_mem _ _ _ (pathBits_bits_lt _ _) (pathBits_bits_lt _ _),
    Finset.mem_insert]
  constructor
  · intro h
    rcases Bool.or_eq_true _ _ |>.mp h with h | h
    · left
      exact valid_pathBits_inj c c₀ hc h₀ (of_decide_eq_true h)
    · right
      exact (hinv c hc).mp h
  · intro h
    rcases h with h | h
    · subst h
      simp
    · rw [(hinv c hc).mpr h]
      simp

theorem trieAbs_remove (t : TrieRoutingTable) (S : Finset Ipv4Cidr) (c₀ : Ipv4Cidr)
    (h₀ : Ipv4Cidr.Valid c₀) (hinv : TrieAbs t S) :
    TrieAbs (t.remove_cidr c₀) (S.erase c₀) := by
  intro c hc
  have hroot : (t.remove_cidr c₀).root =
      (removePath t.root (pathBits c₀.addr c₀.len)).1 := rfl
  rw [hroot, removePath_mem _ _ _ (pathBits_bits_lt _ _) (pathBits_bits_lt _ _),
    Finset.mem_erase, Bool.and_eq_true]
  constructor
  · intro ⟨h1, h2⟩
    refine ⟨?_, (hinv c hc).mp h1⟩
    intro heq
    subst heq
    simp at h2
  · intro ⟨h1, h2⟩
    refine ⟨(hinv c hc).mpr h2, ?_⟩
    simp only [Bool.not_eq_eq_eq_not, Bool.not_true, decide_eq_false_iff_not]
    intro hpeq
    exact h1 (valid_pathBits_inj c c₀ hc h₀ hpeq)

theorem hashAbs_empty : HashAbs HashRoutingTable.new ∅ := by
  intro b l
  simp [HashRoutingTable.new]

theorem listAbs_empty : ListAbs ListRoutingTable.new ∅ := by
  intro c
  simp [ListRoutingTable.new]

theorem trieAbs_empty : TrieAbs TrieRoutingTable.new ∅ := by
  intro c _
  rw [show TrieRoutingTable.new.root = TrieNode.empty from rfl, trieMem_empty]
  simp

/-- Running a disciplined call sequence keeps all three backends abstracted
by one common set of valid entries. -/
theorem run_invariants (ops : List Op) :
    ∀ (S : Finset Ipv4Cidr) (th : HashRoutingTable) (tl : ListRoutingTable)
      (tt : TrieRoutingTable),
      okOps S ops = true → (∀ c ∈ S, Ipv4Cidr.Valid c) →
      HashAbs th S → ListAbs tl S → TrieAbs tt S →
      ∃ S' : Finset Ipv4Cidr, (∀ c ∈ S', Ipv4Cidr.Valid c) ∧
        HashAbs (ops.foldl stepHash th) S' ∧
        ListAbs (ops.foldl stepList tl) S' ∧
        TrieAbs (ops.foldl stepTrie tt) S' := by
  induction ops with
  | nil =>
    intro S th tl tt _ hval hh hl ht
    exact ⟨S, hval, hh, hl, ht⟩
  | cons op ops ih =>
    intro S th tl tt hok hval hh hl ht
    cases op with
    | add c =>
      have hok' : (decide (Ipv4Cidr.Valid c) && decide (c ∉ S) &&
          okOps (insert c S) ops) = true := hok
      rw [Bool.and_eq_true, Bool.and_eq_true] at hok'
      have hcv : Ipv4Cidr.Valid c := of_decide_eq_true hok'.1.1
      have hrest := hok'.2
      refine ih (insert c S) (th.add_cidr c) (tl.add_cidr c) (tt.add_cidr c) hrest ?_
        (hashAbs_add th S c hh) (listAbs_add tl S c hl) (trieAbs_add tt S c hcv ht)
      intro e he
      rcases Finset.mem_insert.mp he with he | he
      · rw [he]
        exact hcv
      · exact hval e he
    | remove c =>
      have hok' : (decide (c ∈ S) && okOps (S.erase c) ops) = true := hok
      rw [Bool.and_eq_true] at hok'
      have hcm : c ∈ S := of_decide_eq_true hok'.1
      have hcv : Ipv4Cidr.Valid c := hval c hcm
      refine ih (S.erase c) (th.remove_cidr c) (tl.remove_cidr c) (tt.remove_cidr c)
        hok'.2 ?_ (hashAbs_remove th S c hh) (listAbs_remove tl S c hl)
        (trieAbs_remove tt S c hcv ht)
      intro e he
      exact hval e (Finset.mem_of_mem_erase he)

/--
Claim C1: for every fixed sequence of `add_cidr`/`remove_cidr` calls obeying
set-semantics duplicate handling (no CIDR added while already present,
removals only of CIDRs currently present, all arguments built by the
validating constructor), the hash, list and trie backends, each started
empty and fed that same sequence, return identical results from
`find_exact_cidr` for every 32-bit IPv4 address.
-/
theorem c1_cross_backend_equiv (ops : List Op) (a : Nat)
    (hok : okOps ∅ ops = true) (ha : a < 2 ^ 32) :
    (runHash ops).find_exact_cidr a = (runList ops).find_exact_cidr a ∧
    (runTrie ops).find_exact_cidr a = (runList ops).find_exact_cidr a := by
  obtain ⟨S', hval, hh, hl, ht⟩ := run_invariants ops ∅ HashRoutingTable.new
    ListRoutingTable.new TrieRoutingTable.new hok (by simp) hashAbs_empty
    listAbs_empty trieAbs_empty
  rw [show runHash ops = ops.foldl stepHash HashRoutingTable.new from rfl,
    show runList ops = ops.foldl stepList ListRoutingTable.new from rfl,
    show runTrie ops = ops.foldl stepTrie TrieRoutingTable.new from rfl,
    hash_find_abs _ S' a hh ha, trie_find_abs _ S' a ht ha,
    list_find_abs _ S' a hl hval ha]
  exact ⟨rfl, rfl⟩

/-- Witness for C1: the one-call sequence adding `10.0.0.0/8`, queried at
address `10.1.2.3`. -/
theorem c1_cross_backend_equiv_witness :
    okOps ∅ [Op.add ⟨167772160, 8⟩] = true ∧ (167837187 : Nat) < 2 ^ 32 ∧
      ((runHash [Op.add ⟨167772160, 8⟩]).find_exact_cidr 167837187 =
        (runList [Op.add ⟨167772160, 8⟩]).find_exact_cidr 167837187 ∧
      (runTrie [Op.add ⟨167772160, 8⟩]).find_exact_cidr 167837187 =
        (runList [Op.add ⟨167772160, 8⟩]).find_exact_cidr 167837187) :=
  ⟨by decide, by norm_num,
    c1_cross_backend_equiv [Op.add ⟨167772160, 8⟩] 167837187 (by decide) (by norm_num)⟩
